import Mathlib

/-!
# Verification of the `.fp` floorplan model and boundary extraction
  (`src/python/io/fp_io.py` of elturner/geometry)

This file shallowly embeds the `Floorplan` class of `fp_io.py`:

* the `.fp` parser `Floorplan.read` (files are modelled as lists of lines,
  each line a list of whitespace-separated tokens; a token either parses as
  a Python `int`, only as a `float`, or as neither);
* the bounds query `compute_bounds`;
* the boundary-edge extractor `compute_boundary_edges_for`;
* the oriented-boundary tracer `compute_oriented_boundary_for`.

Python exceptions are modelled by the `PErr` type and `Except`/`Option`
results.  Machine floats are modelled as rationals (all reasoning here is
about comparisons and equality of parsed decimal literals).
-/

/-- Failure outcomes of the Python code.  The first five are the typed
parse failures the code raises as `IOError` with a message naming the
record; `valueError` is the untyped exception a Python `float(...)` or
`int(...)` conversion raises on a non-numeric argument; `indexError`,
`keyError` are raised by out-of-range list indexing and missing dict
keys; `attributeError` is raised upon calling an undefined method. -/
inductive PErr where
  | headerTooShort
  | bodyCountMismatch
  | malformedVertexLine (i : ℕ)
  | malformedTriangleLine (i : ℕ)
  | malformedRoomLine (i : ℕ)
  | valueError
  | indexError
  | keyError
  | attributeError (method : String)
deriving DecidableEq, Repr

/-- A whitespace-separated token of a `.fp` file.  `int n` is a token that
Python's `int()` accepts (and hence `float()` too); `flt q` is accepted by
`float()` but not `int()` (e.g. `"2.5"`); `bad` is accepted by neither. -/
inductive Tok where
  | int (n : ℤ)
  | flt (q : ℚ)
  | bad
deriving DecidableEq, Repr

/-- One line of the file, already split on whitespace. -/
abbrev Line := List Tok

/-- Python `float(tok)`. -/
def pyFloatTok : Tok → Except PErr ℚ
  | .int n => .ok (n : ℚ)
  | .flt q => .ok q
  | .bad => .error .valueError

/-- Python `int(tok)`. -/
def pyIntTok : Tok → Except PErr ℤ
  | .int n => .ok n
  | _ => .error .valueError

/-- Python `float(line)` where `line` is a whole line of the file: it
succeeds exactly when the line consists of a single float-parseable
token. -/
def lineFloat : Line → Except PErr ℚ
  | [t] => pyFloatTok t
  | _ => .error .valueError

/-- Python `int(line)` for a whole line. -/
def lineInt : Line → Except PErr ℤ
  | [t] => pyIntTok t
  | _ => .error .valueError

/-- Python list indexing `xs[i]`: nonnegative indices are bounds-checked,
negative indices count from the end, anything else raises `IndexError`. -/
def pyIndex {α : Type} (xs : List α) (i : ℤ) : Except PErr α :=
  if h : 0 ≤ i ∧ i < xs.length then
    .ok (xs.get ⟨i.toNat, by omega⟩)
  else if h2 : -xs.length ≤ i ∧ i < 0 then
    .ok (xs.get ⟨(i + xs.length).toNat, by omega⟩)
  else
    .error .indexError

/-- The dynamically typed value stored in `self.room_min_z` /
`self.room_max_z`: the constructor initialises them to lists, but the
room-parsing loop overwrites them with float scalars. -/
inductive ZVal where
  | arr (xs : List ℚ)
  | scal (q : ℚ)
deriving DecidableEq, Repr

/-- The `Floorplan` class of `fp_io.py`: resolution, header counts, the
shared vertex and triangle arrays, and per-room data.  Header counts and
vertex indices are stored as parsed (`int`, i.e. `ℤ`). -/
structure Floorplan where
  res : ℚ
  num_verts : ℤ
  num_tris : ℤ
  num_rooms : ℤ
  verts : List (ℚ × ℚ)
  tris : List (ℤ × ℤ × ℤ)
  room_tris : List (List ℤ)
  room_min_z : ZVal
  room_max_z : ZVal
deriving DecidableEq, Repr

/-- `Floorplan()` without an input file: the empty structure prepared by
`__init__`. -/
def Floorplan.empty : Floorplan where
  res := -1
  num_verts := 0
  num_tris := 0
  num_rooms := 0
  verts := []
  tris := []
  room_tris := []
  room_min_z := .arr []
  room_max_z := .arr []

/-- A directed edge between two vertex indices. -/
abbrev Edge := ℤ × ℤ

/-- The first loop of `compute_boundary_edges_for`: for each triangle
index `ti` in `tri_inds`, look up `self.tris[ti] = (i,j,k)` and append the
directed edges `(i,j), (j,k), (k,i)` to `all_edges`. -/
def Floorplan.allEdgesFor (fp : Floorplan) : List ℤ → Except PErr (List Edge)
  | [] => .ok []
  | ti :: rest =>
    match pyIndex fp.tris ti with
    | .error e => .error e
    | .ok (i, j, k) =>
      match fp.allEdgesFor rest with
      | .error e => .error e
      | .ok es => .ok ((i, j) :: (j, k) :: (k, i) :: es)

/-- `compute_boundary_edges_for(tri_inds)`: emit the three directed edges
of every listed triangle, then keep each occurrence `(i,j)` whose reverse
`(j,i)` does not occur anywhere in the emitted list. -/
def Floorplan.compute_boundary_edges_for (fp : Floorplan) (tri_inds : List ℤ) :
    Except PErr (List Edge) :=
  match fp.allEdgesFor tri_inds with
  | .error e => .error e
  | .ok all_edges =>
    .ok (all_edges.filter (fun e => decide ((e.2, e.1) ∉ all_edges)))

/-- `compute_boundary_edges()`: the whole-floorplan variant, scoped to
`range(len(self.tris))`. -/
def Floorplan.compute_boundary_edges (fp : Floorplan) : Except PErr (List Edge) :=
  fp.compute_boundary_edges_for ((List.range fp.tris.length).map (fun n => (n : ℤ)))

/-- `compute_room_boundary_edges(roomid)`: scoped to `self.room_tris[roomid]`. -/
def Floorplan.compute_room_boundary_edges (fp : Floorplan) (roomid : ℤ) :
    Except PErr (List Edge) :=
  match pyIndex fp.room_tris roomid with
  | .error e => .error e
  | .ok inds => fp.compute_boundary_edges_for inds

/-- One folding step of `compute_bounds`: compare one vertex against the
four running bounds. -/
def boundsStep (st : ℚ × ℚ × ℚ × ℚ) (v : ℚ × ℚ) : ℚ × ℚ × ℚ × ℚ :=
  let xmin := if v.1 < st.1 then v.1 else st.1
  let xmax := if v.1 > st.2.1 then v.1 else st.2.1
  let ymin := if v.2 < st.2.2.1 then v.2 else st.2.2.1
  let ymax := if v.2 > st.2.2.2 then v.2 else st.2.2.2
  (xmin, xmax, ymin, ymax)

/-- `compute_bounds()`: fold every vertex into bounds initialised at
`(0, 0, 0, 0)`, returning `((x_min, x_max), (y_min, y_max))`. -/
def Floorplan.compute_bounds (fp : Floorplan) : (ℚ × ℚ) × (ℚ × ℚ) :=
  let r := fp.verts.foldl boundsStep (0, 0, 0, 0)
  ((r.1, r.2.1), (r.2.2.1, r.2.2.2))

/-- The `edge_map` dictionary of `compute_oriented_boundary_for`, mapping
a start vertex to its list of outgoing pending boundary edges.  A Python
dict accessed only by key is modelled as a function to `Option`. -/
abbrev EMap := ℤ → Option (List Edge)

/-- `edge_map[k] = l` (assignment / in-place update of the dict entry). -/
def emSet (m : EMap) (k : ℤ) (l : List Edge) : EMap :=
  fun x => if x = k then some l else m x

/-- One iteration of the map-building loop: append `(i,j)` to
`edge_map[i]` if the key exists, else create `edge_map[i] = [(i,j)]`. -/
def emAdd (m : EMap) (e : Edge) : EMap :=
  match m e.1 with
  | some l => emSet m e.1 (l ++ [e])
  | none => emSet m e.1 [e]

/-- The map-building loop of `compute_oriented_boundary_for`, iterating
over `all_edges` in order. -/
def buildEdgeMap (es : List Edge) : EMap :=
  es.foldl emAdd (fun _ => none)

/-- The inner `while len(edge_map[last]) > 0` walk of
`compute_oriented_boundary_for`.  `start` is the first vertex of the loop
under construction, `last` the current end vertex, `acc` the vertex list
built so far.  Each consuming step performs exactly the Python body:
`e = edge_map[last].pop()` (`pop()` takes the final element),
`all_edges.remove(e)` (removes the first occurrence, `ValueError` if
absent), then either breaks (loop closed) or appends `e[1]`.  The walk
returns the finished vertex list together with the remaining
`all_edges` and `edge_map`.  The `fuel` argument is always called with
`fuel = all.length`; each recursive call removes one member from `all`,
so the zero-fuel fallback is unreachable. -/
def walkF : ℕ → List Edge → EMap → ℤ → ℤ → List ℤ →
    Except PErr (List ℤ × List Edge × EMap)
  | 0, all, m, start, last, acc =>
    match m last with
    | none => .error .keyError
    | some [] => .ok (acc, all, m)
    | some (e0 :: es) =>
      let e := (e0 :: es).getLast (by simp)
      let m2 := emSet m last ((e0 :: es).dropLast)
      if e ∈ all then
        let all2 := all.erase e
        if e.2 = start then .ok (acc, all2, m2)
        else .error .keyError
      else .error .valueError
  | fuel + 1, all, m, start, last, acc =>
    match m last with
    | none => .error .keyError
    | some [] => .ok (acc, all, m)
    | some (e0 :: es) =>
      let e := (e0 :: es).getLast (by simp)
      let m2 := emSet m last ((e0 :: es).dropLast)
      if e ∈ all then
        let all2 := all.erase e
        if e.2 = start then .ok (acc, all2, m2)
        else walkF fuel all2 m2 start e.2 (acc ++ [e.2])
      else .error .valueError

/-- The outer `while len(all_edges) > 0` loop of
`compute_oriented_boundary_for`: pop the final pending edge `e`, start the
boundary `[e[0], e[1]]`, remove `e` from `edge_map[e[0]]` (`KeyError` /
`ValueError` if missing), run the inner walk, and continue with the
remaining edges.  As in `walkF`, `fuel` is always called with
`fuel = all.length` and the zero-fuel fallback is unreachable. -/
def traceAllF : ℕ → List Edge → EMap → Except PErr (List (List ℤ))
  | 0, all, m =>
    match all.getLast? with
    | none => .ok []
    | some e =>
      let all1 := all.dropLast
      match m e.1 with
      | none => .error .keyError
      | some l =>
        if e ∈ l then
          let m1 := emSet m e.1 (l.erase e)
          match walkF all1.length all1 m1 e.1 e.2 [e.1, e.2] with
          | .error er => .error er
          | .ok _ => .error .keyError
        else .error .valueError
  | fuel + 1, all, m =>
    match all.getLast? with
    | none => .ok []
    | some e =>
      let all1 := all.dropLast
      match m e.1 with
      | none => .error .keyError
      | some l =>
        if e ∈ l then
          let m1 := emSet m e.1 (l.erase e)
          match walkF all1.length all1 m1 e.1 e.2 [e.1, e.2] with
          | .error er => .error er
          | .ok (loop, all2, m2) =>
            match traceAllF fuel all2 m2 with
            | .error er => .error er
            | .ok loops => .ok (loop :: loops)
        else .error .valueError

/-- `compute_oriented_boundary_for(tri_inds)`: compute the boundary
edges, build the start-vertex map, and trace out the boundary loops. -/
def Floorplan.compute_oriented_boundary_for (fp : Floorplan) (tri_inds : List ℤ) :
    Except PErr (List (List ℤ)) :=
  match fp.compute_boundary_edges_for tri_inds with
  | .error e => .error e
  | .ok all_edges => traceAllF all_edges.length all_edges (buildEdgeMap all_edges)

/-- `compute_oriented_boundary()`: the source line reads
`return self.compute_oriented_boundary_edges_for(range(len(self.tris)))`,
but no method of that name is defined anywhere in the class (the tracer is
called `compute_oriented_boundary_for`), so every call raises
`AttributeError` before any geometry is computed. -/
def Floorplan.compute_oriented_boundary (_fp : Floorplan) :
    Except PErr (List (List ℤ)) :=
  .error (.attributeError "compute_oriented_boundary_edges_for")

/-- `compute_room_oriented_boundary(roomid)`: scoped to
`self.room_tris[roomid]`; this one calls the tracer by its real name. -/
def Floorplan.compute_room_oriented_boundary (fp : Floorplan) (roomid : ℤ) :
    Except PErr (List (List ℤ)) :=
  match pyIndex fp.room_tris roomid with
  | .error e => .error e
  | .ok inds => fp.compute_oriented_boundary_for inds

/-- The vertex loop of `read`: `for i in range(num_verts)`, get
`content[offset+i]`, reject a line that is not exactly two tokens with
the typed record error, parse the two floats (an unparseable token raises
the untyped `ValueError`), and append the pair to `self.verts`.  `rem` is
the number of iterations left; on failure the partially updated object is
returned alongside the error. -/
def readVertsLoop (content : List Line) (off : ℤ) :
    ℕ → ℕ → Floorplan → Floorplan × Option PErr
  | _, 0, fp => (fp, none)
  | i, rem + 1, fp =>
    match pyIndex content (off + i) with
    | .error e => (fp, some e)
    | .ok v =>
      match v with
      | [a, b] =>
        match pyFloatTok a with
        | .error e => (fp, some e)
        | .ok x =>
          match pyFloatTok b with
          | .error e => (fp, some e)
          | .ok y =>
            readVertsLoop content off (i + 1) rem
              { fp with verts := fp.verts ++ [(x, y)] }
      | _ => (fp, some (.malformedVertexLine i))

/-- The triangle loop of `read`: each record must be exactly three
tokens, parsed as ints and appended to `self.tris`. -/
def readTrisLoop (content : List Line) (off : ℤ) :
    ℕ → ℕ → Floorplan → Floorplan × Option PErr
  | _, 0, fp => (fp, none)
  | i, rem + 1, fp =>
    match pyIndex content (off + i) with
    | .error e => (fp, some e)
    | .ok t =>
      match t with
      | [a, b, c] =>
        match pyIntTok a with
        | .error e => (fp, some e)
        | .ok x =>
          match pyIntTok b with
          | .error e => (fp, some e)
          | .ok y =>
            match pyIntTok c with
            | .error e => (fp, some e)
            | .ok z =>
              readTrisLoop content off (i + 1) rem
                { fp with tris := fp.tris ++ [(x, y, z)] }
      | _ => (fp, some (.malformedTriangleLine i))

/-- The `for j in range(num_tris)` loop inside a room record: parse each
remaining token as a triangle index, aborting at the first `ValueError`. -/
def parseIntsLoop : List Tok → Except PErr (List ℤ)
  | [] => .ok []
  | t :: rest =>
    match pyIntTok t with
    | .error e => .error e
    | .ok x =>
      match parseIntsLoop rest with
      | .error e => .error e
      | .ok xs => .ok (x :: xs)

/-- The room loop of `read`.  A record shorter than three tokens is the
typed room error; then `self.room_min_z = float(r[0])` and
`self.room_max_z = float(r[1])` overwrite the two fields with scalars
(each assignment happens before the next conversion can fail);
`num_tris = int(r[2])` is read, and a record whose total length differs
from `3 + num_tris` is again the typed room error; finally the triangle
indices are parsed and appended to `self.room_tris`. -/
def readRoomsLoop (content : List Line) (off : ℤ) :
    ℕ → ℕ → Floorplan → Floorplan × Option PErr
  | _, 0, fp => (fp, none)
  | i, rem + 1, fp =>
    match pyIndex content (off + i) with
    | .error e => (fp, some e)
    | .ok r =>
      match r with
      | a :: b :: c :: restToks =>
        match pyFloatTok a with
        | .error e => (fp, some e)
        | .ok zmin =>
          let fp1 := { fp with room_min_z := .scal zmin }
          match pyFloatTok b with
          | .error e => (fp1, some e)
          | .ok zmax =>
            let fp2 := { fp1 with room_max_z := .scal zmax }
            match pyIntTok c with
            | .error e => (fp2, some e)
            | .ok nt =>
              if (3 + restToks.length : ℤ) ≠ 3 + nt then
                (fp2, some (.malformedRoomLine i))
              else
                match parseIntsLoop restToks with
                | .error e => (fp2, some e)
                | .ok inds =>
                  readRoomsLoop content off (i + 1) rem
                    { fp2 with room_tris := fp2.room_tris ++ [inds] }
      | _ => (fp, some (.malformedRoomLine i))

/-- `Floorplan.read(input_file)`: the file, already split into lines and
tokens, is parsed in place.  Mirrors the source step by step: the
4-line-header check, the four header assignments (each conversion can
raise before its assignment), the declared-counts-versus-length check,
then the three record loops, each of which first resets its target
field(s).  Returns the (possibly partially) updated object and the error,
if any. -/
def Floorplan.read (fp0 : Floorplan) (content : List Line) :
    Floorplan × Option PErr :=
  if content.length < 4 then (fp0, some .headerTooShort)
  else
    match pyIndex content 0 with
    | .error e => (fp0, some e)
    | .ok l0 =>
      match lineFloat l0 with
      | .error e => (fp0, some e)
      | .ok r =>
        let fp1 := { fp0 with res := r }
        match pyIndex content 1 with
        | .error e => (fp1, some e)
        | .ok l1 =>
          match lineInt l1 with
          | .error e => (fp1, some e)
          | .ok nv =>
            let fp2 := { fp1 with num_verts := nv }
            match pyIndex content 2 with
            | .error e => (fp2, some e)
            | .ok l2 =>
              match lineInt l2 with
              | .error e => (fp2, some e)
              | .ok nt =>
                let fp3 := { fp2 with num_tris := nt }
                match pyIndex content 3 with
                | .error e => (fp3, some e)
                | .ok l3 =>
                  match lineInt l3 with
                  | .error e => (fp3, some e)
                  | .ok nr =>
                    let fp4 := { fp3 with num_rooms := nr }
                    if (content.length : ℤ) < 4 + nv + nt + nr then
                      (fp4, some .bodyCountMismatch)
                    else
                      match readVertsLoop content 4 0 nv.toNat
                          { fp4 with verts := [] } with
                      | (fp5, some e) => (fp5, some e)
                      | (fp5, none) =>
                        match readTrisLoop content (4 + nv) 0 nt.toNat
                            { fp5 with tris := [] } with
                        | (fp6, some e) => (fp6, some e)
                        | (fp6, none) =>
                          readRoomsLoop content (4 + nv + nt) 0 nr.toNat
                            { fp6 with room_tris := [],
                                       room_min_z := .arr [],
                                       room_max_z := .arr [] }

/-! ## Derived notions used to state the claims -/

/-- `(m v).getD []`: the list of pending outgoing edges recorded for `v`
(empty when the key is absent). -/
def emL (m : EMap) (v : ℤ) : List Edge := (m v).getD []

/-- The occurrences in `E` of edges leaving `v`. -/
def outEdges (E : List Edge) (v : ℤ) : List Edge :=
  E.filter (fun e => decide (e.1 = v))

/-- The occurrences in `E` of edges entering `v`. -/
def inEdges (E : List Edge) (v : ℤ) : List Edge :=
  E.filter (fun e => decide (e.2 = v))

/-- Out-degree of `v` in the edge list `E` (with multiplicity). -/
def outdeg (E : List Edge) (v : ℤ) : ℕ := (outEdges E v).length

/-- In-degree of `v` in the edge list `E` (with multiplicity). -/
def indeg (E : List Edge) (v : ℤ) : ℕ := (inEdges E v).length

/-- The consecutive directed edges of a vertex path
(`chainEdges [a,b,c] = [(a,b),(b,c)]`). -/
def chainEdges : List ℤ → List Edge
  | x :: y :: rest => (x, y) :: chainEdges (y :: rest)
  | _ => []

/-- The directed edges a loop (closed polygon given as its vertex list)
traverses, including the implicit closing edge from the final vertex back
to the first. -/
def loopEdges : List ℤ → List Edge
  | [] => []
  | v :: rest => chainEdges ((v :: rest) ++ [v])

/-- Invariant tying `edge_map` to the pending edges between outer
iterations of the tracer: degrees are at most one and balanced at every
vertex, every recorded per-vertex list holds exactly the pending edges
leaving that vertex, both endpoints of every pending edge are keys of the
map, and no pending edge is a self-loop. -/
structure InvO (m : EMap) (E : List Edge) : Prop where
  degO : ∀ v, outdeg E v ≤ 1
  degI : ∀ v, indeg E v ≤ 1
  bal : ∀ v, outdeg E v = indeg E v
  consistent : ∀ v, (emL m v).Perm (outEdges E v)
  keyed : ∀ e ∈ E, m e.1 ≠ none ∧ m e.2 ≠ none
  noSelf : ∀ e ∈ E, e.1 ≠ e.2

/-- Invariant of the inner walk: the trail started at `s` (whose outgoing
edge was already consumed) and currently ends at `c ≠ s`; all vertices
other than `s` and `c` are balanced, `s` still awaits its incoming edge,
and `c` has its incoming edge already consumed. -/
structure InvW (m : EMap) (E : List Edge) (s c : ℤ) : Prop where
  degO : ∀ v, outdeg E v ≤ 1
  degI : ∀ v, indeg E v ≤ 1
  balO : ∀ v, v ≠ s → v ≠ c → outdeg E v = indeg E v
  outS : outdeg E s = 0
  inS : indeg E s = 1
  inC : indeg E c = 0
  ne : c ≠ s
  consistent : ∀ v, (emL m v).Perm (outEdges E v)
  keyed : ∀ e ∈ E, m e.1 ≠ none ∧ m e.2 ≠ none
  noSelf : ∀ e ∈ E, e.1 ≠ e.2
  keyC : m c ≠ none

/-- Modelled from the spec (for comparison with `compute_bounds` only):
"Axis-aligned bounding box over all vertices", an empty floorplan
returning `(0, 0, 0, 0)` by convention. -/
def compute_bounds_spec (fp : Floorplan) : (ℚ × ℚ) × (ℚ × ℚ) :=
  match fp.verts with
  | [] => ((0, 0), (0, 0))
  | v :: rest =>
    let r := rest.foldl boundsStep (v.1, v.1, v.2, v.2)
    ((r.1, r.2.1), (r.2.2.1, r.2.2.2))

/-- Folding minimum as `compute_bounds` computes it. -/
def foldMin (m : ℚ) (xs : List ℚ) : ℚ :=
  xs.foldl (fun a x => if x < a then x else a) m

/-- Folding maximum as `compute_bounds` computes it. -/
def foldMax (m : ℚ) (xs : List ℚ) : ℚ :=
  xs.foldl (fun a x => if x > a then x else a) m

/-- Does Python `float()` accept the token? -/
def tokFloatOk (t : Tok) : Bool :=
  match pyFloatTok t with
  | .ok _ => true
  | .error _ => false

/-- Does Python `int()` accept the token? -/
def tokIntOk (t : Tok) : Bool :=
  match pyIntTok t with
  | .ok _ => true
  | .error _ => false

/-- A vertex record the parser accepts: exactly two float tokens. -/
def vlineOk (l : Line) : Bool :=
  match l with
  | [a, b] => tokFloatOk a && tokFloatOk b
  | _ => false

/-- A triangle record the parser accepts: exactly three int tokens. -/
def tlineOk (l : Line) : Bool :=
  match l with
  | [a, b, c] => tokIntOk a && tokIntOk b && tokIntOk c
  | _ => false

/-- A room record the parser accepts: two float tokens, an int count
matching the number of remaining tokens, and int triangle indices. -/
def rlineOk (l : Line) : Bool :=
  match l with
  | a :: b :: c :: rest =>
    tokFloatOk a && tokFloatOk b &&
      (match pyIntTok c with
       | .ok n => decide ((rest.length : ℤ) = n) && rest.all tokIntOk
       | .error _ => false)
  | _ => false

/-! ## Concrete fixtures -/

/-- A unit square split along its diagonal into two CCW triangles
(Scenario A of the spec). -/
def fpSquare : Floorplan :=
  { Floorplan.empty with
      num_verts := 4, num_tris := 2,
      verts := [(0, 0), (1, 0), (1, 1), (0, 1)],
      tris := [(0, 1, 2), (0, 2, 3)] }

/-- Two distinct, non-degenerate triangles listing the shared edge
`(0,1)` with the same winding. -/
def fpSameWind : Floorplan :=
  { Floorplan.empty with
      num_verts := 4, num_tris := 2,
      tris := [(0, 1, 2), (0, 1, 3)] }

/-- The edges `fpSameWind` emits for the subset `[0, 1]`; none has its
reverse present, so all six are classified as boundary, `(0,1)` twice. -/
def allSameWind : List Edge :=
  [(0, 1), (1, 2), (2, 0), (0, 1), (1, 3), (3, 0)]

/-- Three triangles whose boundary has vertex `0` with two incoming but
only one outgoing boundary edge, so one traced trail gets stuck. -/
def fpNonMan : Floorplan :=
  { Floorplan.empty with
      num_verts := 5, num_tris := 3,
      tris := [(0, 1, 2), (0, 1, 3), (1, 0, 4)] }

/-- The boundary edges of `fpNonMan` over all three triangles. -/
def bNonMan : List Edge :=
  [(1, 2), (2, 0), (1, 3), (3, 0), (0, 4), (4, 1)]

/-- A floorplan with a single vertex at `(5, 5)`. -/
def fpOneVert : Floorplan :=
  { Floorplan.empty with num_verts := 1, verts := [(5, 5)] }

/-- A well-formed two-room file (no vertices or triangles):
resolution 1; rooms `(floor 1, ceiling 10)` and `(floor 2, ceiling 20)`,
each with zero triangles. -/
def fileTwoRooms : List Line :=
  [[.int 1], [.int 0], [.int 0], [.int 2],
   [.int 1, .int 10, .int 0],
   [.int 2, .int 20, .int 0]]

/-- A file with a valid header (`res 2`, one vertex, no triangles or
rooms) whose single vertex record has only one token. -/
def fileBadVertCount : List Line :=
  [[.int 2], [.int 1], [.int 0], [.int 0], [.int 7]]

/-- A file with a valid header whose single vertex record has the right
number of tokens, both of them non-numeric. -/
def fileBadVertTok : List Line :=
  [[.int 1], [.int 1], [.int 0], [.int 0], [.bad, .bad]]

/-! ## Claim theorems: concrete evaluations -/

/-- C2 (code bug): calling the whole-floorplan oriented boundary query on
the empty floorplan does not return an empty list: the source line calls
the undefined method `compute_oriented_boundary_edges_for`, so Python
raises `AttributeError` (for any floorplan, in particular the empty one).
-/
theorem compute_oriented_boundary_raises_attribute_error :
    Floorplan.empty.compute_oriented_boundary =
      .error (.attributeError "compute_oriented_boundary_edges_for") := rfl

/-- C4 (code bug): parsing a well-formed two-room file succeeds, but
`room_min_z` / `room_max_z` end up as the scalars of the *last* room
record (floor `2`, ceiling `20`), not as arrays of length `num_rooms = 2`:
the loop assigns `self.room_min_z = float(r[0])` instead of appending. -/
theorem read_overwrites_room_elevations :
    (Floorplan.empty.read fileTwoRooms).2 = none ∧
    (Floorplan.empty.read fileTwoRooms).1.num_rooms = 2 ∧
    (Floorplan.empty.read fileTwoRooms).1.room_min_z = .scal 2 ∧
    (Floorplan.empty.read fileTwoRooms).1.room_max_z = .scal 20 :=
  ⟨rfl, rfl, rfl, rfl⟩

/-- C5 (counterexample): on the unit square the tracer does return a
single loop, but the returned vertex sequence is `[3, 0, 1, 2]` (the
outer loop pops the *last* pending edge `(3,0)` first), not the sequence
`[0, 1, 2, 3]` stated by the claim. -/
theorem square_loop_is_rotated :
    fpSquare.compute_oriented_boundary_for [0, 1] = .ok [[3, 0, 1, 2]] ∧
    ([[3, 0, 1, 2]] : List (List ℤ)) ≠ [[0, 1, 2, 3]] :=
  ⟨rfl, by decide⟩

/-- C5 (amended): on the unit square the boundary edges are exactly
`{(0,1),(1,2),(2,3),(3,0)}` (the diagonal cancels), and the oriented
boundary is the single loop `[3, 0, 1, 2]`, a cyclic rotation of
`[0, 1, 2, 3]`. -/
theorem square_boundary_and_loop :
    fpSquare.compute_boundary_edges_for [0, 1] =
      .ok [(0, 1), (1, 2), (2, 3), (3, 0)] ∧
    ([(0, 1), (1, 2), (2, 3), (3, 0)] : List Edge).Perm
      [(1, 2), (2, 3), (3, 0), (0, 1)] ∧
    fpSquare.compute_oriented_boundary_for [0, 1] = .ok [[3, 0, 1, 2]] ∧
    ([3, 0, 1, 2] : List ℤ) = List.rotate [0, 1, 2, 3] 3 :=
  ⟨rfl, by decide, rfl, by decide⟩

/-- C6 (counterexample): on `fpNonMan` two traced trails get stuck (no
outgoing pending edge at vertex `0` resp. `2` before returning to their
start), yet the call returns `.ok` and the two *open* polylines
`[2, 0]` and `[1, 2]` are part of the returned loop list — their closing
edges `(0,2)` and `(2,1)` are not boundary edges — contradicting the
claim that open polylines are never emitted and a `NonManifoldBoundary`
condition is reported. -/
theorem nonmanifold_open_polylines_emitted :
    fpNonMan.compute_boundary_edges_for [0, 1, 2] = .ok bNonMan ∧
    fpNonMan.compute_oriented_boundary_for [0, 1, 2] =
      .ok [[4, 1, 3, 0], [2, 0], [1, 2]] ∧
    ((0, 2) : Edge) ∉ bNonMan ∧ ((2, 1) : Edge) ∉ bNonMan :=
  ⟨rfl, rfl, by decide, by decide⟩

/-- C6 (amended): when a trail cannot close, the tracer silently keeps
the open polyline in its result and continues: the closed loop
`[4, 1, 3, 0]` is still produced (its closing edge `(0,4)` is a boundary
edge), the two stuck trails appear as open polylines, and together the
three entries consume every boundary edge exactly once — no error and no
`NonManifoldBoundary` report of any kind occurs. -/
theorem nonmanifold_trace_continues :
    fpNonMan.compute_oriented_boundary_for [0, 1, 2] =
      .ok [[4, 1, 3, 0], [2, 0], [1, 2]] ∧
    ((0, 4) : Edge) ∈ bNonMan ∧
    bNonMan.Perm
      (loopEdges [4, 1, 3, 0] ++ chainEdges [2, 0] ++ chainEdges [1, 2]) :=
  ⟨rfl, by decide, by decide⟩

/-- C1 (counterexample): for the subset `[0, 1]` of `fpSameWind` the
edge `(0, 1)` is emitted twice with no reverse occurrence; it is
classified as a boundary edge (it is in the returned list) although its
count among the emitted edges is `2`, not `1` as the claim requires. -/
theorem boundary_iff_claim_fails_on_duplicate :
    fpSameWind.allEdgesFor [0, 1] = .ok allSameWind ∧
    fpSameWind.compute_boundary_edges_for [0, 1] = .ok allSameWind ∧
    ((0, 1) : Edge) ∈ allSameWind ∧
    allSameWind.count ((0, 1) : Edge) = 2 ∧
    allSameWind.count ((1, 0) : Edge) = 0 :=
  ⟨rfl, rfl, by decide, by decide, by decide⟩

/-- C1 (amended): an emitted occurrence `(i,j)` is kept as a boundary
edge iff the reverse `(j,i)` occurs nowhere among the emitted edges; the
count of `(i,j)` itself is not examined. -/
theorem boundary_mem_iff_reverse_absent (fp : Floorplan) (tri_inds : List ℤ)
    (all_edges : List Edge) (h : fp.allEdgesFor tri_inds = .ok all_edges) :
    ∃ bl, fp.compute_boundary_edges_for tri_inds = .ok bl ∧
      ∀ e : Edge, e ∈ bl ↔ e ∈ all_edges ∧ (e.2, e.1) ∉ all_edges := by
  refine ⟨all_edges.filter (fun e => decide ((e.2, e.1) ∉ all_edges)), ?_, ?_⟩
  · unfold Floorplan.compute_boundary_edges_for
    rw [h]
  · intro e
    simp [List.mem_filter]

/-- Witness for `boundary_mem_iff_reverse_absent` at the unit square. -/
theorem boundary_mem_iff_reverse_absent_witness :
    fpSquare.allEdgesFor [0, 1] =
      .ok [(0, 1), (1, 2), (2, 0), (0, 2), (2, 3), (3, 0)] ∧
    ∃ bl, fpSquare.compute_boundary_edges_for [0, 1] = .ok bl ∧
      ∀ e : Edge,
        e ∈ bl ↔ e ∈ [((0:ℤ), (1:ℤ)), (1, 2), (2, 0), (0, 2), (2, 3), (3, 0)] ∧
          (e.2, e.1) ∉ [((0:ℤ), (1:ℤ)), (1, 2), (2, 0), (0, 2), (2, 3), (3, 0)] :=
  ⟨rfl, boundary_mem_iff_reverse_absent fpSquare [0, 1]
    [(0, 1), (1, 2), (2, 0), (0, 2), (2, 3), (3, 0)] rfl⟩

/-- C7 (counterexample): the subset `[0, 1]` of `fpSameWind` has no
duplicate indices and its two triangles are distinct and non-degenerate,
yet the returned boundary list contains the directed edge `(0, 1)`
twice. -/
theorem boundary_returns_duplicate_edge :
    fpSameWind.tris = [(0, 1, 2), (0, 1, 3)] ∧
    ([0, 1] : List ℤ).Nodup ∧
    fpSameWind.compute_boundary_edges_for [0, 1] = .ok allSameWind ∧
    allSameWind.count ((0, 1) : Edge) = 2 ∧
    ¬ allSameWind.Nodup :=
  ⟨rfl, by decide, rfl, by decide, by decide⟩

/-- C7 (amended): whenever the emitted directed-edge list of the subset
has no duplicate occurrence, the returned boundary list has no duplicate
either (it is a sublist of the emitted list). -/
theorem boundary_nodup_of_emitted_nodup (fp : Floorplan) (tri_inds : List ℤ)
    (all_edges : List Edge) (h : fp.allEdgesFor tri_inds = .ok all_edges)
    (hnd : all_edges.Nodup) :
    ∃ bl, fp.compute_boundary_edges_for tri_inds = .ok bl ∧ bl.Nodup := by
  refine ⟨all_edges.filter (fun e => decide ((e.2, e.1) ∉ all_edges)), ?_, ?_⟩
  · unfold Floorplan.compute_boundary_edges_for
    rw [h]
  · exact hnd.filter _

/-- Witness for `boundary_nodup_of_emitted_nodup` at the unit square. -/
theorem boundary_nodup_of_emitted_nodup_witness :
    ([((0:ℤ), (1:ℤ)), (1, 2), (2, 0), (0, 2), (2, 3), (3, 0)] : List Edge).Nodup ∧
    ∃ bl, fpSquare.compute_boundary_edges_for [0, 1] = .ok bl ∧ bl.Nodup :=
  ⟨by decide, boundary_nodup_of_emitted_nodup fpSquare [0, 1]
    [(0, 1), (1, 2), (2, 0), (0, 2), (2, 3), (3, 0)] rfl (by decide)⟩

/-- C3 (counterexample): for the floorplan whose single vertex is
`(5, 5)`, `compute_bounds` returns `((0, 5), (0, 5))` — its running
minima start at `0` — while the bounding box of the vertex set is
`((5, 5), (5, 5))`. -/
theorem compute_bounds_is_not_vertex_bbox :
    fpOneVert.verts = [(5, 5)] ∧
    fpOneVert.compute_bounds = ((0, 5), (0, 5)) ∧
    compute_bounds_spec fpOneVert = ((5, 5), (5, 5)) ∧
    fpOneVert.compute_bounds ≠ compute_bounds_spec fpOneVert :=
  ⟨rfl, rfl, rfl, by decide⟩

/-! ## Bounds characterization (C3) -/

/-- The 4-component bounds fold decomposes into per-axis min/max folds. -/
theorem foldl_boundsStep_eq (vs : List (ℚ × ℚ)) : ∀ st : ℚ × ℚ × ℚ × ℚ,
    vs.foldl boundsStep st =
      (foldMin st.1 (vs.map Prod.fst), foldMax st.2.1 (vs.map Prod.fst),
       foldMin st.2.2.1 (vs.map Prod.snd), foldMax st.2.2.2 (vs.map Prod.snd)) := by
  induction vs with
  | nil => intro st; simp [foldMin, foldMax]
  | cons v vs ih =>
    intro st
    simp only [List.foldl_cons, List.map_cons]
    rw [ih]
    simp [boundsStep, foldMin, foldMax]

/-- `foldMin` is a lower bound on the seed and the list, and it is
attained by the seed or some list element. -/
theorem foldMin_spec (xs : List ℚ) : ∀ m : ℚ,
    foldMin m xs ≤ m ∧ (foldMin m xs = m ∨ foldMin m xs ∈ xs) ∧
      ∀ x ∈ xs, foldMin m xs ≤ x := by
  induction xs with
  | nil => intro m; simp [foldMin]
  | cons x xs ih =>
    intro m
    have hstep : foldMin m (x :: xs) = foldMin (if x < m then x else m) xs := rfl
    obtain ⟨h1, h2, h3⟩ := ih (if x < m then x else m)
    rw [hstep]
    by_cases hxm : x < m
    · rw [if_pos hxm] at h1 h2 h3 ⊢
      refine ⟨le_trans h1 (le_of_lt hxm), ?_, ?_⟩
      · rcases h2 with h2 | h2
        · exact Or.inr (by rw [h2]; exact List.mem_cons_self _ _)
        · exact Or.inr (List.mem_cons_of_mem _ h2)
      · intro y hy
        rcases List.mem_cons.mp hy with rfl | hy
        · exact h1
        · exact h3 y hy
    · rw [if_neg hxm] at h1 h2 h3 ⊢
      refine ⟨h1, ?_, ?_⟩
      · rcases h2 with h2 | h2
        · exact Or.inl h2
        · exact Or.inr (List.mem_cons_of_mem _ h2)
      · intro y hy
        rcases List.mem_cons.mp hy with rfl | hy
        · exact le_trans h1 (not_lt.mp hxm)
        · exact h3 y hy

/-- `foldMax` is an upper bound on the seed and the list, and it is
attained by the seed or some list element. -/
theorem foldMax_spec (xs : List ℚ) : ∀ m : ℚ,
    m ≤ foldMax m xs ∧ (foldMax m xs = m ∨ foldMax m xs ∈ xs) ∧
      ∀ x ∈ xs, x ≤ foldMax m xs := by
  induction xs with
  | nil => intro m; simp [foldMax]
  | cons x xs ih =>
    intro m
    have hstep : foldMax m (x :: xs) = foldMax (if x > m then x else m) xs := rfl
    obtain ⟨h1, h2, h3⟩ := ih (if x > m then x else m)
    rw [hstep]
    by_cases hxm : x > m
    · rw [if_pos hxm] at h1 h2 h3 ⊢
      refine ⟨le_trans (le_of_lt hxm) h1, ?_, ?_⟩
      · rcases h2 with h2 | h2
        · exact Or.inr (by rw [h2]; exact List.mem_cons_self _ _)
        · exact Or.inr (List.mem_cons_of_mem _ h2)
      · intro y hy
        rcases List.mem_cons.mp hy with rfl | hy
        · exact h1
        · exact h3 y hy
    · rw [if_neg hxm] at h1 h2 h3 ⊢
      refine ⟨h1, ?_, ?_⟩
      · rcases h2 with h2 | h2
        · exact Or.inl h2
        · exact Or.inr (List.mem_cons_of_mem _ h2)
      · intro y hy
        rcases List.mem_cons.mp hy with rfl | hy
        · exact le_trans (not_lt.mp hxm) h1
        · exact h3 y hy

/-- C3 (amended): `compute_bounds` returns the axis-aligned bounding box
of the vertex set *extended by the origin*: each returned minimum is
`≤ 0`, each maximum `≥ 0`, every vertex lies inside the returned box, and
each of the four returned values is `0` or a coordinate of some vertex.
(The claim's "bounding box of the vertex set" fails whenever that box
does not contain the origin, see the counterexample.) -/
theorem compute_bounds_bbox_with_origin (fp : Floorplan) :
    (fp.compute_bounds.1.1 ≤ 0 ∧ 0 ≤ fp.compute_bounds.1.2 ∧
     fp.compute_bounds.2.1 ≤ 0 ∧ 0 ≤ fp.compute_bounds.2.2) ∧
    (∀ v ∈ fp.verts,
      fp.compute_bounds.1.1 ≤ v.1 ∧ v.1 ≤ fp.compute_bounds.1.2 ∧
      fp.compute_bounds.2.1 ≤ v.2 ∧ v.2 ≤ fp.compute_bounds.2.2) ∧
    ((fp.compute_bounds.1.1 = 0 ∨ ∃ v ∈ fp.verts, fp.compute_bounds.1.1 = v.1) ∧
     (fp.compute_bounds.1.2 = 0 ∨ ∃ v ∈ fp.verts, fp.compute_bounds.1.2 = v.1) ∧
     (fp.compute_bounds.2.1 = 0 ∨ ∃ v ∈ fp.verts, fp.compute_bounds.2.1 = v.2) ∧
     (fp.compute_bounds.2.2 = 0 ∨ ∃ v ∈ fp.verts, fp.compute_bounds.2.2 = v.2)) := by
  have hb : fp.compute_bounds =
      ((foldMin 0 (fp.verts.map Prod.fst), foldMax 0 (fp.verts.map Prod.fst)),
       (foldMin 0 (fp.verts.map Prod.snd), foldMax 0 (fp.verts.map Prod.snd))) := by
    unfold Floorplan.compute_bounds
    rw [foldl_boundsStep_eq]
  obtain ⟨hx1, hx2, hx3⟩ := foldMin_spec (fp.verts.map Prod.fst) 0
  obtain ⟨hX1, hX2, hX3⟩ := foldMax_spec (fp.verts.map Prod.fst) 0
  obtain ⟨hy1, hy2, hy3⟩ := foldMin_spec (fp.verts.map Prod.snd) 0
  obtain ⟨hY1, hY2, hY3⟩ := foldMax_spec (fp.verts.map Prod.snd) 0
  rw [hb]
  refine ⟨⟨hx1, hX1, hy1, hY1⟩, ?_, ?_, ?_, ?_, ?_⟩
  · intro v hv
    exact ⟨hx3 _ (List.mem_map_of_mem _ hv), hX3 _ (List.mem_map_of_mem _ hv),
      hy3 _ (List.mem_map_of_mem _ hv), hY3 _ (List.mem_map_of_mem _ hv)⟩
  · rcases hx2 with h | h
    · exact Or.inl h
    · obtain ⟨v, hv, hveq⟩ := List.mem_map.mp h
      exact Or.inr ⟨v, hv, hveq.symm⟩
  · rcases hX2 with h | h
    · exact Or.inl h
    · obtain ⟨v, hv, hveq⟩ := List.mem_map.mp h
      exact Or.inr ⟨v, hv, hveq.symm⟩
  · rcases hy2 with h | h
    · exact Or.inl h
    · obtain ⟨v, hv, hveq⟩ := List.mem_map.mp h
      exact Or.inr ⟨v, hv, hveq.symm⟩
  · rcases hY2 with h | h
    · exact Or.inl h
    · obtain ⟨v, hv, hveq⟩ := List.mem_map.mp h
      exact Or.inr ⟨v, hv, hveq.symm⟩

/-! ## Parser lemmas (C8, C9) -/

/-- A float-accepted token yields some rational. -/
theorem tokFloatOk_elim (t : Tok) (h : tokFloatOk t = true) :
    ∃ x, pyFloatTok t = .ok x := by
  unfold tokFloatOk at h
  cases ht : pyFloatTok t with
  | ok x => exact ⟨x, rfl⟩
  | error e => rw [ht] at h; simp at h

/-- An int-accepted token yields some integer. -/
theorem tokIntOk_elim (t : Tok) (h : tokIntOk t = true) :
    ∃ x, pyIntTok t = .ok x := by
  unfold tokIntOk at h
  cases ht : pyIntTok t with
  | ok x => exact ⟨x, rfl⟩
  | error e => rw [ht] at h; simp at h

/-- Shape of an accepted vertex record. -/
theorem vlineOk_elim (l : Line) (h : vlineOk l = true) :
    ∃ a b x y, l = [a, b] ∧ pyFloatTok a = .ok x ∧ pyFloatTok b = .ok y := by
  match l with
  | [] => simp [vlineOk] at h
  | [a] => simp [vlineOk] at h
  | [a, b] =>
    simp only [vlineOk, Bool.and_eq_true] at h
    obtain ⟨x, hx⟩ := tokFloatOk_elim a h.1
    obtain ⟨y, hy⟩ := tokFloatOk_elim b h.2
    exact ⟨a, b, x, y, rfl, hx, hy⟩
  | a :: b :: c :: t => simp [vlineOk] at h

/-- Shape of an accepted triangle record. -/
theorem tlineOk_elim (l : Line) (h : tlineOk l = true) :
    ∃ a b c x y z, l = [a, b, c] ∧
      pyIntTok a = .ok x ∧ pyIntTok b = .ok y ∧ pyIntTok c = .ok z := by
  match l with
  | [] => simp [tlineOk] at h
  | [a] => simp [tlineOk] at h
  | [a, b] => simp [tlineOk] at h
  | [a, b, c] =>
    simp only [tlineOk, Bool.and_eq_true] at h
    obtain ⟨x, hx⟩ := tokIntOk_elim a h.1.1
    obtain ⟨y, hy⟩ := tokIntOk_elim b h.1.2
    obtain ⟨z, hz⟩ := tokIntOk_elim c h.2
    exact ⟨a, b, c, x, y, z, rfl, hx, hy, hz⟩
  | a :: b :: c :: d :: t => simp [tlineOk] at h

/-- An all-int token list parses. -/
theorem parseIntsLoop_ok (rest : List Tok) (h : rest.all tokIntOk = true) :
    ∃ xs, parseIntsLoop rest = .ok xs := by
  induction rest with
  | nil => exact ⟨[], rfl⟩
  | cons t ts ih =>
    simp only [List.all_cons, Bool.and_eq_true] at h
    obtain ⟨x, hx⟩ := tokIntOk_elim t h.1
    obtain ⟨xs, hxs⟩ := ih h.2
    exact ⟨x :: xs, by simp [parseIntsLoop, hx, hxs]⟩

/-- Shape of an accepted room record. -/
theorem rlineOk_elim (l : Line) (h : rlineOk l = true) :
    ∃ a b c rest x y n, l = a :: b :: c :: rest ∧
      pyFloatTok a = .ok x ∧ pyFloatTok b = .ok y ∧ pyIntTok c = .ok n ∧
      (rest.length : ℤ) = n ∧ ∃ inds, parseIntsLoop rest = .ok inds := by
  match l with
  | [] => simp [rlineOk] at h
  | [a] => simp [rlineOk] at h
  | [a, b] => simp [rlineOk] at h
  | a :: b :: c :: rest =>
    simp only [rlineOk, Bool.and_eq_true] at h
    obtain ⟨⟨ha, hb⟩, hm⟩ := h
    obtain ⟨x, hx⟩ := tokFloatOk_elim a ha
    obtain ⟨y, hy⟩ := tokFloatOk_elim b hb
    cases hc : pyIntTok c with
    | error e => rw [hc] at hm; simp at hm
    | ok n =>
      rw [hc] at hm
      simp only [Bool.and_eq_true, decide_eq_true_eq] at hm
      obtain ⟨inds, hinds⟩ := parseIntsLoop_ok rest hm.2
      exact ⟨a, b, c, rest, x, y, n, rfl, hx, hy, hc, hm.1, inds, hinds⟩

/-- The vertex loop never touches the header fields nor the triangle or
room data. -/
theorem readVertsLoop_frame (c : List Line) (off : ℤ) : ∀ rem i fp,
    (readVertsLoop c off i rem fp).1.res = fp.res ∧
    (readVertsLoop c off i rem fp).1.num_verts = fp.num_verts ∧
    (readVertsLoop c off i rem fp).1.num_tris = fp.num_tris ∧
    (readVertsLoop c off i rem fp).1.num_rooms = fp.num_rooms ∧
    (readVertsLoop c off i rem fp).1.tris = fp.tris ∧
    (readVertsLoop c off i rem fp).1.room_tris = fp.room_tris ∧
    (readVertsLoop c off i rem fp).1.room_min_z = fp.room_min_z ∧
    (readVertsLoop c off i rem fp).1.room_max_z = fp.room_max_z := by
  intro rem
  induction rem with
  | zero => intro i fp; exact ⟨rfl, rfl, rfl, rfl, rfl, rfl, rfl, rfl⟩
  | succ rem ih =>
    intro i fp
    simp only [readVertsLoop]
    repeat' split
    all_goals first
      | exact ⟨rfl, rfl, rfl, rfl, rfl, rfl, rfl, rfl⟩
      | exact ih (i + 1) _

/-- The triangle loop never touches the header fields nor the vertex or
room data. -/
theorem readTrisLoop_frame (c : List Line) (off : ℤ) : ∀ rem i fp,
    (readTrisLoop c off i rem fp).1.res = fp.res ∧
    (readTrisLoop c off i rem fp).1.num_verts = fp.num_verts ∧
    (readTrisLoop c off i rem fp).1.num_tris = fp.num_tris ∧
    (readTrisLoop c off i rem fp).1.num_rooms = fp.num_rooms ∧
    (readTrisLoop c off i rem fp).1.verts = fp.verts ∧
    (readTrisLoop c off i rem fp).1.room_tris = fp.room_tris ∧
    (readTrisLoop c off i rem fp).1.room_min_z = fp.room_min_z ∧
    (readTrisLoop c off i rem fp).1.room_max_z = fp.room_max_z := by
  intro rem
  induction rem with
  | zero => intro i fp; exact ⟨rfl, rfl, rfl, rfl, rfl, rfl, rfl, rfl⟩
  | succ rem ih =>
    intro i fp
    simp only [readTrisLoop]
    repeat' split
    all_goals first
      | exact ⟨rfl, rfl, rfl, rfl, rfl, rfl, rfl, rfl⟩
      | exact ih (i + 1) _

/-- The room loop never touches the header fields nor the vertex or
triangle arrays. -/
theorem readRoomsLoop_frame (c : List Line) (off : ℤ) : ∀ rem i fp,
    (readRoomsLoop c off i rem fp).1.res = fp.res ∧
    (readRoomsLoop c off i rem fp).1.num_verts = fp.num_verts ∧
    (readRoomsLoop c off i rem fp).1.num_tris = fp.num_tris ∧
    (readRoomsLoop c off i rem fp).1.num_rooms = fp.num_rooms ∧
    (readRoomsLoop c off i rem fp).1.verts = fp.verts ∧
    (readRoomsLoop c off i rem fp).1.tris = fp.tris := by
  intro rem
  induction rem with
  | zero => intro i fp; exact ⟨rfl, rfl, rfl, rfl, rfl, rfl⟩
  | succ rem ih =>
    intro i fp
    simp only [readRoomsLoop]
    repeat' split
    all_goals first
      | exact ⟨rfl, rfl, rfl, rfl, rfl, rfl⟩
      | exact ih (i + 1) _

/-- The vertex loop succeeds when every remaining record is accepted. -/
theorem readVertsLoop_ok (c : List Line) (off : ℤ) : ∀ rem i fp,
    (∀ j : ℕ, i ≤ j → j < i + rem →
      ∃ lj, pyIndex c (off + (j : ℤ)) = .ok lj ∧ vlineOk lj = true) →
    ∃ fp2, readVertsLoop c off i rem fp = (fp2, none) := by
  intro rem
  induction rem with
  | zero => intro i fp hgood; exact ⟨fp, rfl⟩
  | succ rem ih =>
    intro i fp hgood
    obtain ⟨li, hli, hok⟩ := hgood i (le_refl i) (by omega)
    obtain ⟨a, b, x, y, rfl, hx, hy⟩ := vlineOk_elim li hok
    have hstep : readVertsLoop c off i (rem + 1) fp =
        readVertsLoop c off (i + 1) rem { fp with verts := fp.verts ++ [(x, y)] } := by
      simp [readVertsLoop, hli, hx, hy]
    rw [hstep]
    exact ih (i + 1) _ (fun j hj1 hj2 => hgood j (by omega) (by omega))

/-- The vertex loop stops with the typed per-record error at the first
record with the wrong number of tokens. -/
theorem readVertsLoop_badlen (c : List Line) (off : ℤ) : ∀ rem i fp ib,
    i ≤ ib → ib < i + rem →
    (∀ j : ℕ, i ≤ j → j < ib →
      ∃ lj, pyIndex c (off + (j : ℤ)) = .ok lj ∧ vlineOk lj = true) →
    ∀ lb, pyIndex c (off + (ib : ℤ)) = .ok lb → lb.length ≠ 2 →
    ∃ fp2, readVertsLoop c off i rem fp = (fp2, some (.malformedVertexLine ib)) := by
  intro rem
  induction rem with
  | zero => intro i fp ib h1 h2; omega
  | succ rem ih =>
    intro i fp ib hib1 hib2 hgood lb hlb hlen
    by_cases hieq : ib = i
    · subst hieq
      rcases lb with _ | ⟨a, _ | ⟨b, _ | ⟨c3, t⟩⟩⟩
      · exact ⟨fp, by simp [readVertsLoop, hlb]⟩
      · exact ⟨fp, by simp [readVertsLoop, hlb]⟩
      · simp at hlen
      · exact ⟨fp, by simp [readVertsLoop, hlb]⟩
    · obtain ⟨li, hli, hok⟩ := hgood i (le_refl i) (by omega)
      obtain ⟨a, b, x, y, rfl, hx, hy⟩ := vlineOk_elim li hok
      have hstep : readVertsLoop c off i (rem + 1) fp =
          readVertsLoop c off (i + 1) rem { fp with verts := fp.verts ++ [(x, y)] } := by
        simp [readVertsLoop, hli, hx, hy]
      rw [hstep]
      exact ih (i + 1) _ ib (by omega) (by omega)
        (fun j hj1 hj2 => hgood j (by omega) hj2) lb hlb hlen

/-- The triangle loop succeeds when every remaining record is accepted. -/
theorem readTrisLoop_ok (c : List Line) (off : ℤ) : ∀ rem i fp,
    (∀ j : ℕ, i ≤ j → j < i + rem →
      ∃ lj, pyIndex c (off + (j : ℤ)) = .ok lj ∧ tlineOk lj = true) →
    ∃ fp2, readTrisLoop c off i rem fp = (fp2, none) := by
  intro rem
  induction rem with
  | zero => intro i fp hgood; exact ⟨fp, rfl⟩
  | succ rem ih =>
    intro i fp hgood
    obtain ⟨li, hli, hok⟩ := hgood i (le_refl i) (by omega)
    obtain ⟨a, b, c3, x, y, z, rfl, hx, hy, hz⟩ := tlineOk_elim li hok
    have hstep : readTrisLoop c off i (rem + 1) fp =
        readTrisLoop c off (i + 1) rem { fp with tris := fp.tris ++ [(x, y, z)] } := by
      simp [readTrisLoop, hli, hx, hy, hz]
    rw [hstep]
    exact ih (i + 1) _ (fun j hj1 hj2 => hgood j (by omega) (by omega))

/-- The triangle loop stops with the typed per-record error at the first
record with the wrong number of tokens. -/
theorem readTrisLoop_badlen (c : List Line) (off : ℤ) : ∀ rem i fp ib,
    i ≤ ib → ib < i + rem →
    (∀ j : ℕ, i ≤ j → j < ib →
      ∃ lj, pyIndex c (off + (j : ℤ)) = .ok lj ∧ tlineOk lj = true) →
    ∀ lb, pyIndex c (off + (ib : ℤ)) = .ok lb → lb.length ≠ 3 →
    ∃ fp2, readTrisLoop c off i rem fp = (fp2, some (.malformedTriangleLine ib)) := by
  intro rem
  induction rem with
  | zero => intro i fp ib h1 h2; omega
  | succ rem ih =>
    intro i fp ib hib1 hib2 hgood lb hlb hlen
    by_cases hieq : ib = i
    · subst hieq
      rcases lb with _ | ⟨a, _ | ⟨b, _ | ⟨c3, _ | ⟨d, t⟩⟩⟩⟩
      · exact ⟨fp, by simp [readTrisLoop, hlb]⟩
      · exact ⟨fp, by simp [readTrisLoop, hlb]⟩
      · exact ⟨fp, by simp [readTrisLoop, hlb]⟩
      · simp at hlen
      · exact ⟨fp, by simp [readTrisLoop, hlb]⟩
    · obtain ⟨li, hli, hok⟩ := hgood i (le_refl i) (by omega)
      obtain ⟨a, b, c3, x, y, z, rfl, hx, hy, hz⟩ := tlineOk_elim li hok
      have hstep : readTrisLoop c off i (rem + 1) fp =
          readTrisLoop c off (i + 1) rem { fp with tris := fp.tris ++ [(x, y, z)] } := by
        simp [readTrisLoop, hli, hx, hy, hz]
      rw [hstep]
      exact ih (i + 1) _ ib (by omega) (by omega)
        (fun j hj1 hj2 => hgood j (by omega) hj2) lb hlb hlen

/-- The room loop stops with the typed per-record error at the first
record whose token count is wrong: either fewer than three tokens, or —
once the two elevations and the count parse — a total length different
from `3 + num_tris`. -/
theorem readRoomsLoop_badlen (c : List Line) (off : ℤ) : ∀ rem i fp ib,
    i ≤ ib → ib < i + rem →
    (∀ j : ℕ, i ≤ j → j < ib →
      ∃ lj, pyIndex c (off + (j : ℤ)) = .ok lj ∧ rlineOk lj = true) →
    ∀ lb, pyIndex c (off + (ib : ℤ)) = .ok lb →
    (lb.length < 3 ∨
      ∃ a b c3 rest x y n, lb = a :: b :: c3 :: rest ∧
        pyFloatTok a = .ok x ∧ pyFloatTok b = .ok y ∧ pyIntTok c3 = .ok n ∧
        (rest.length : ℤ) ≠ n) →
    ∃ fp2, readRoomsLoop c off i rem fp = (fp2, some (.malformedRoomLine ib)) := by
  intro rem
  induction rem with
  | zero => intro i fp ib h1 h2; omega
  | succ rem ih =>
    intro i fp ib hib1 hib2 hgood lb hlb hbad
    by_cases hieq : ib = i
    · subst hieq
      rcases hbad with hshort | ⟨a, b, c3, rest, x, y, n, rfl, hx, hy, hn, hne⟩
      · rcases lb with _ | ⟨a, _ | ⟨b, _ | ⟨c3, t⟩⟩⟩
        · exact ⟨fp, by simp [readRoomsLoop, hlb]⟩
        · exact ⟨fp, by simp [readRoomsLoop, hlb]⟩
        · exact ⟨fp, by simp [readRoomsLoop, hlb]⟩
        · simp only [List.length_cons] at hshort; omega
      · refine ⟨{ fp with room_min_z := .scal x, room_max_z := .scal y }, ?_⟩
        have hcond : (3 + (rest.length : ℤ)) ≠ 3 + n := by omega
        simp [readRoomsLoop, hlb, hx, hy, hn, hcond]
    · obtain ⟨li, hli, hok⟩ := hgood i (le_refl i) (by omega)
      obtain ⟨a, b, c3, rest, x, y, n, rfl, hx, hy, hn, hlenn, inds, hinds⟩ :=
        rlineOk_elim li hok
      have hcond : ¬ ((3 + (rest.length : ℤ)) ≠ 3 + n) := by omega
      have hstep : readRoomsLoop c off i (rem + 1) fp =
          readRoomsLoop c off (i + 1) rem
            { fp with room_min_z := .scal x, room_max_z := .scal y,
                      room_tris := fp.room_tris ++ [inds] } := by
        simp [readRoomsLoop, hli, hx, hy, hn, hcond, hinds]
      rw [hstep]
      exact ih (i + 1) _ ib (by omega) (by omega)
        (fun j hj1 hj2 => hgood j (by omega) hj2) lb hlb hbad

/-- Once the four header lines parse and the count check passes, `read`
is the three record loops run on the document with the new header fields
installed and `verts` reset. -/
theorem read_past_header (fp0 : Floorplan) (content : List Line)
    (l0 l1 l2 l3 : Line) (r : ℚ) (nv nt nr : ℤ)
    (h4 : ¬ content.length < 4)
    (h0 : pyIndex content 0 = .ok l0) (hr : lineFloat l0 = .ok r)
    (h1 : pyIndex content 1 = .ok l1) (hnv : lineInt l1 = .ok nv)
    (h2 : pyIndex content 2 = .ok l2) (hnt : lineInt l2 = .ok nt)
    (h3 : pyIndex content 3 = .ok l3) (hnr : lineInt l3 = .ok nr)
    (hbc : ¬ (content.length : ℤ) < 4 + nv + nt + nr) :
    fp0.read content =
      match readVertsLoop content 4 0 nv.toNat
          { fp0 with res := r, num_verts := nv, num_tris := nt,
                     num_rooms := nr, verts := [] } with
      | (fp5, some e) => (fp5, some e)
      | (fp5, none) =>
        match readTrisLoop content (4 + nv) 0 nt.toNat { fp5 with tris := [] } with
        | (fp6, some e) => (fp6, some e)
        | (fp6, none) =>
          readRoomsLoop content (4 + nv + nt) 0 nr.toNat
            { fp6 with room_tris := [], room_min_z := .arr [],
                       room_max_z := .arr [] } := by
  unfold Floorplan.read
  rw [if_neg h4]
  simp only [h0, hr, h1, hnv, h2, hnt, h3, hnr]
  rw [if_neg hbc]

/-- C8 (amended): a parse that gets past the header check never restores
the previous document: whether it later succeeds or fails, the header
fields hold the new file's values, so a body failure leaves a partially
populated document rather than the original one. -/
theorem read_failure_keeps_new_header (fp0 : Floorplan) (content : List Line)
    (l0 l1 l2 l3 : Line) (r : ℚ) (nv nt nr : ℤ) (fpOut : Floorplan) (err : PErr)
    (h4 : ¬ content.length < 4)
    (h0 : pyIndex content 0 = .ok l0) (hr : lineFloat l0 = .ok r)
    (h1 : pyIndex content 1 = .ok l1) (hnv : lineInt l1 = .ok nv)
    (h2 : pyIndex content 2 = .ok l2) (hnt : lineInt l2 = .ok nt)
    (h3 : pyIndex content 3 = .ok l3) (hnr : lineInt l3 = .ok nr)
    (hbc : ¬ (content.length : ℤ) < 4 + nv + nt + nr)
    (hrun : fp0.read content = (fpOut, some err)) :
    fpOut.res = r ∧ fpOut.num_verts = nv ∧ fpOut.num_tris = nt ∧
      fpOut.num_rooms = nr := by
  rw [read_past_header fp0 content l0 l1 l2 l3 r nv nt nr
    h4 h0 hr h1 hnv h2 hnt h3 hnr hbc] at hrun
  rcases hv : readVertsLoop content 4 0 nv.toNat
      { fp0 with res := r, num_verts := nv, num_tris := nt,
                 num_rooms := nr, verts := [] } with ⟨fp5, e5⟩
  have hframe5 := readVertsLoop_frame content 4 nv.toNat 0
    { fp0 with res := r, num_verts := nv, num_tris := nt,
               num_rooms := nr, verts := [] }
  rw [hv] at hframe5 hrun
  cases e5 with
  | some e =>
    simp only at hrun
    injection hrun with hfp heq
    subst hfp
    exact ⟨hframe5.1, hframe5.2.1, hframe5.2.2.1, hframe5.2.2.2.1⟩
  | none =>
    simp only at hrun
    rcases ht : readTrisLoop content (4 + nv) 0 nt.toNat { fp5 with tris := [] }
      with ⟨fp6, e6⟩
    have hframe6 := readTrisLoop_frame content (4 + nv) nt.toNat 0
      { fp5 with tris := [] }
    rw [ht] at hframe6 hrun
    cases e6 with
    | some e =>
      simp only at hrun
      injection hrun with hfp heq
      subst hfp
      refine ⟨?_, ?_, ?_, ?_⟩
      · exact hframe6.1.trans hframe5.1
      · exact hframe6.2.1.trans hframe5.2.1
      · exact hframe6.2.2.1.trans hframe5.2.2.1
      · exact hframe6.2.2.2.1.trans hframe5.2.2.2.1
    | none =>
      simp only at hrun
      have hframeR := readRoomsLoop_frame content (4 + nv + nt) nr.toNat 0
        { fp6 with room_tris := [], room_min_z := .arr [], room_max_z := .arr [] }
      rw [hrun] at hframeR
      refine ⟨?_, ?_, ?_, ?_⟩
      · exact hframeR.1.trans (hframe6.1.trans hframe5.1)
      · exact hframeR.2.1.trans (hframe6.2.1.trans hframe5.2.1)
      · exact hframeR.2.2.1.trans (hframe6.2.2.1.trans hframe5.2.2.1)
      · exact hframeR.2.2.2.1.trans (hframe6.2.2.2.1.trans hframe5.2.2.2.1)

/-- C8 (counterexample): parsing `fileBadVertCount` into a fresh empty
document fails at vertex record 0, yet the document is neither fully
populated (`verts` is empty although `num_verts = 1`) nor unchanged
(`res` went from `-1` to the file's `2`). -/
theorem read_failure_mutates_document :
    (Floorplan.empty.read fileBadVertCount).2 = some (.malformedVertexLine 0) ∧
    (Floorplan.empty.read fileBadVertCount).1.res = 2 ∧
    Floorplan.empty.res = -1 ∧
    (Floorplan.empty.read fileBadVertCount).1 ≠ Floorplan.empty ∧
    (Floorplan.empty.read fileBadVertCount).1.num_verts = 1 ∧
    (Floorplan.empty.read fileBadVertCount).1.verts = [] :=
  ⟨rfl, rfl, rfl, by decide, rfl, rfl⟩

/-- Witness for `read_failure_keeps_new_header`: on `fileBadVertCount`
the failing parse leaves the file's header `2, 1, 0, 0` in the document.
-/
theorem read_failure_keeps_new_header_witness :
    (Floorplan.empty.read fileBadVertCount).1.res = 2 ∧
    (Floorplan.empty.read fileBadVertCount).1.num_verts = 1 ∧
    (Floorplan.empty.read fileBadVertCount).1.num_tris = 0 ∧
    (Floorplan.empty.read fileBadVertCount).1.num_rooms = 0 :=
  read_failure_keeps_new_header Floorplan.empty fileBadVertCount
    [.int 2] [.int 1] [.int 0] [.int 0] 2 1 0 0
    (Floorplan.empty.read fileBadVertCount).1 (.malformedVertexLine 0)
    (by decide) rfl rfl rfl rfl rfl rfl rfl rfl (by decide) rfl

/-- C9 (amended): once the header parses and the count check passes, a
record with the *wrong token count* — the first bad record of its
section, all earlier records being accepted — fails the parse with the
matching typed error carrying the record index: `malformedVertexLine ib`
for a vertex record that is not exactly 2 tokens, `malformedTriangleLine
ib` for a triangle record that is not exactly 3 tokens, and
`malformedRoomLine ib` for a room record that is shorter than 3 tokens
or whose length disagrees with its declared `3 + num_tris` (the latter
only after its two elevations and count parse).  A *non-numeric token*,
by contrast, does not produce these typed errors: it raises the untyped
`ValueError` of Python's `float()`/`int()` (see the counterexample). -/
theorem read_wrong_token_count_typed (fp0 : Floorplan) (content : List Line)
    (l0 l1 l2 l3 : Line) (r : ℚ) (nv nt nr : ℤ)
    (h4 : ¬ content.length < 4)
    (h0 : pyIndex content 0 = .ok l0) (hr : lineFloat l0 = .ok r)
    (h1 : pyIndex content 1 = .ok l1) (hnv : lineInt l1 = .ok nv)
    (h2 : pyIndex content 2 = .ok l2) (hnt : lineInt l2 = .ok nt)
    (h3 : pyIndex content 3 = .ok l3) (hnr : lineInt l3 = .ok nr)
    (hbc : ¬ (content.length : ℤ) < 4 + nv + nt + nr) :
    (∀ ib lb, ib < nv.toNat →
      (∀ j : ℕ, j < ib →
        ∃ lj, pyIndex content (4 + (j : ℤ)) = .ok lj ∧ vlineOk lj = true) →
      pyIndex content (4 + (ib : ℤ)) = .ok lb → lb.length ≠ 2 →
      (fp0.read content).2 = some (.malformedVertexLine ib)) ∧
    (∀ ib lb,
      (∀ j : ℕ, j < nv.toNat →
        ∃ lj, pyIndex content (4 + (j : ℤ)) = .ok lj ∧ vlineOk lj = true) →
      ib < nt.toNat →
      (∀ j : ℕ, j < ib →
        ∃ lj, pyIndex content ((4 + nv) + (j : ℤ)) = .ok lj ∧ tlineOk lj = true) →
      pyIndex content ((4 + nv) + (ib : ℤ)) = .ok lb → lb.length ≠ 3 →
      (fp0.read content).2 = some (.malformedTriangleLine ib)) ∧
    (∀ ib lb,
      (∀ j : ℕ, j < nv.toNat →
        ∃ lj, pyIndex content (4 + (j : ℤ)) = .ok lj ∧ vlineOk lj = true) →
      (∀ j : ℕ, j < nt.toNat →
        ∃ lj, pyIndex content ((4 + nv) + (j : ℤ)) = .ok lj ∧ tlineOk lj = true) →
      ib < nr.toNat →
      (∀ j : ℕ, j < ib →
        ∃ lj, pyIndex content ((4 + nv + nt) + (j : ℤ)) = .ok lj ∧ rlineOk lj = true) →
      pyIndex content ((4 + nv + nt) + (ib : ℤ)) = .ok lb →
      (lb.length < 3 ∨
        ∃ a b c3 rest x y n, lb = a :: b :: c3 :: rest ∧
          pyFloatTok a = .ok x ∧ pyFloatTok b = .ok y ∧ pyIntTok c3 = .ok n ∧
          (rest.length : ℤ) ≠ n) →
      (fp0.read content).2 = some (.malformedRoomLine ib)) := by
  have hpast := read_past_header fp0 content l0 l1 l2 l3 r nv nt nr
    h4 h0 hr h1 hnv h2 hnt h3 hnr hbc
  refine ⟨?_, ?_, ?_⟩
  · intro ib lb hib hgood hlb hlen
    rw [hpast]
    obtain ⟨fp2, hv⟩ := readVertsLoop_badlen content 4 nv.toNat 0
      { fp0 with res := r, num_verts := nv, num_tris := nt,
                 num_rooms := nr, verts := [] }
      ib (Nat.zero_le _) (by omega) (fun j _ hj2 => hgood j hj2) lb hlb hlen
    rw [hv]
  · intro ib lb hallv hib hgood hlb hlen
    rw [hpast]
    obtain ⟨fp5, hv⟩ := readVertsLoop_ok content 4 nv.toNat 0
      { fp0 with res := r, num_verts := nv, num_tris := nt,
                 num_rooms := nr, verts := [] }
      (fun j _ hj2 => hallv j (by omega))
    rw [hv]
    dsimp only
    obtain ⟨fp2, ht⟩ := readTrisLoop_badlen content (4 + nv) nt.toNat 0
      { fp5 with tris := [] }
      ib (Nat.zero_le _) (by omega) (fun j _ hj2 => hgood j hj2) lb hlb hlen
    rw [ht]
  · intro ib lb hallv hallt hib hgood hlb hbad
    rw [hpast]
    obtain ⟨fp5, hv⟩ := readVertsLoop_ok content 4 nv.toNat 0
      { fp0 with res := r, num_verts := nv, num_tris := nt,
                 num_rooms := nr, verts := [] }
      (fun j _ hj2 => hallv j (by omega))
    rw [hv]
    dsimp only
    obtain ⟨fp6, ht⟩ := readTrisLoop_ok content (4 + nv) nt.toNat 0
      { fp5 with tris := [] }
      (fun j _ hj2 => hallt j (by omega))
    rw [ht]
    dsimp only
    obtain ⟨fp2, hrm⟩ := readRoomsLoop_badlen content (4 + nv + nt) nr.toNat 0
      { fp6 with room_tris := [], room_min_z := .arr [], room_max_z := .arr [] }
      ib (Nat.zero_le _) (by omega) (fun j _ hj2 => hgood j hj2) lb hlb hbad
    rw [hrm]

/-- Witness for `read_wrong_token_count_typed`: the one-token vertex
record of `fileBadVertCount` yields `malformedVertexLine 0`. -/
theorem read_wrong_token_count_typed_witness :
    (Floorplan.empty.read fileBadVertCount).2 =
      some (.malformedVertexLine 0) :=
  (read_wrong_token_count_typed Floorplan.empty fileBadVertCount
    [.int 2] [.int 1] [.int 0] [.int 0] 2 1 0 0
    (by decide) rfl rfl rfl rfl rfl rfl rfl rfl (by decide)).1
    0 [.int 7] (by decide) (fun j hj => absurd hj (by omega)) rfl (by decide)

/-- C9 (counterexample): vertex record 0 of `fileBadVertTok` has the
*right* token count (two tokens) but non-numeric tokens; the parse fails
with the untyped `ValueError` raised by `float()`, not with
`MalformedVertexLine(0)`. -/
theorem read_nonnumeric_gives_untyped_valueerror :
    (Floorplan.empty.read fileBadVertTok).2 = some PErr.valueError ∧
    ([Tok.bad, Tok.bad] : Line).length = 2 ∧
    tokFloatOk Tok.bad = false ∧
    some PErr.valueError ≠ some (PErr.malformedVertexLine 0) :=
  ⟨rfl, rfl, rfl, by decide⟩

/-! ## Tracer lemmas (C10) -/

/-- Reading an updated key. -/
theorem emL_emSet_self (m : EMap) (k : ℤ) (l : List Edge) :
    emL (emSet m k l) k = l := by
  simp [emL, emSet]

/-- Reading any other key. -/
theorem emL_emSet_other (m : EMap) (k : ℤ) (l : List Edge) (x : ℤ)
    (h : x ≠ k) : emL (emSet m k l) x = emL m x := by
  simp [emL, emSet, h]

/-- `emSet` never deletes a key. -/
theorem emSet_ne_none (m : EMap) (k : ℤ) (l : List Edge) (x : ℤ)
    (h : m x ≠ none) : emSet m k l x ≠ none := by
  unfold emSet
  by_cases hx : x = k <;> simp [hx, h]

/-- The key just written is present. -/
theorem emSet_self_ne_none (m : EMap) (k : ℤ) (l : List Edge) :
    emSet m k l k ≠ none := by
  simp [emSet]

/-- One build step appends the edge to its start vertex's list. -/
theorem emL_emAdd (m : EMap) (e : Edge) (v : ℤ) :
    emL (emAdd m e) v = if e.1 = v then emL m e.1 ++ [e] else emL m v := by
  unfold emAdd
  by_cases hv : e.1 = v
  · subst hv
    cases hm : m e.1 <;> simp [emL, hm, emSet]
  · cases hm : m e.1 <;>
      simp [emL_emSet_other m e.1 _ v (fun h => hv h.symm), hv]

/-- `outEdges` of a cons. -/
theorem outEdges_cons (e : Edge) (E : List Edge) (v : ℤ) :
    outEdges (e :: E) v = if e.1 = v then e :: outEdges E v else outEdges E v := by
  by_cases h : e.1 = v <;> simp [outEdges, h]

/-- `inEdges` of a cons. -/
theorem inEdges_cons (e : Edge) (E : List Edge) (v : ℤ) :
    inEdges (e :: E) v = if e.2 = v then e :: inEdges E v else inEdges E v := by
  by_cases h : e.2 = v <;> simp [inEdges, h]

/-- The built edge map records, per vertex, exactly the emitted edges
leaving it, in emission order. -/
theorem buildEdgeMap_emL (es : List Edge) (v : ℤ) :
    emL (buildEdgeMap es) v = outEdges es v := by
  suffices h : ∀ m : EMap, emL (es.foldl emAdd m) v = emL m v ++ outEdges es v by
    have := h (fun _ => none)
    simpa [buildEdgeMap, emL] using this
  induction es with
  | nil => intro m; simp [outEdges]
  | cons e es ih =>
    intro m
    rw [List.foldl_cons, ih (emAdd m e), emL_emAdd, outEdges_cons]
    by_cases hv : e.1 = v
    · simp [hv]
    · simp [hv]

/-- A vertex with an emitted outgoing edge is a key of the built map. -/
theorem buildEdgeMap_ne_none (es : List Edge) (v : ℤ)
    (h : outEdges es v ≠ []) : buildEdgeMap es v ≠ none := by
  intro hn
  apply h
  rw [← buildEdgeMap_emL es v]
  simp [emL, hn]

/-- Degrees are permutation invariants. -/
theorem outdeg_of_perm {E1 E2 : List Edge} (h : E1.Perm E2) (v : ℤ) :
    outdeg E1 v = outdeg E2 v :=
  (h.filter _).length_eq

/-- Degrees are permutation invariants. -/
theorem indeg_of_perm {E1 E2 : List Edge} (h : E1.Perm E2) (v : ℤ) :
    indeg E1 v = indeg E2 v :=
  (h.filter _).length_eq

/-- Out-degree in a cons. -/
theorem outdeg_cons (e : Edge) (E : List Edge) (v : ℤ) :
    outdeg (e :: E) v = (if e.1 = v then 1 else 0) + outdeg E v := by
  rw [outdeg, outEdges_cons]
  by_cases h : e.1 = v <;> simp [h, outdeg, Nat.add_comm]

/-- In-degree in a cons. -/
theorem indeg_cons (e : Edge) (E : List Edge) (v : ℤ) :
    indeg (e :: E) v = (if e.2 = v then 1 else 0) + indeg E v := by
  rw [indeg, inEdges_cons]
  by_cases h : e.2 = v <;> simp [h, indeg, Nat.add_comm]

/-- Degrees only shrink along sublists. -/
theorem outdeg_le_of_sublist {E1 E2 : List Edge} (h : E1.Sublist E2) (v : ℤ) :
    outdeg E1 v ≤ outdeg E2 v :=
  (h.filter _).length_le

/-- Degrees only shrink along sublists. -/
theorem indeg_le_of_sublist {E1 E2 : List Edge} (h : E1.Sublist E2) (v : ℤ) :
    indeg E1 v ≤ indeg E2 v :=
  (h.filter _).length_le

/-- Membership in `outEdges`. -/
theorem mem_outEdges {e : Edge} {E : List Edge} {v : ℤ} :
    e ∈ outEdges E v ↔ e ∈ E ∧ e.1 = v := by
  simp [outEdges, List.mem_filter]

/-- Membership in `inEdges`. -/
theorem mem_inEdges {e : Edge} {E : List Edge} {v : ℤ} :
    e ∈ inEdges E v ↔ e ∈ E ∧ e.2 = v := by
  simp [inEdges, List.mem_filter]

/-- A vertex of out-degree one has a unique outgoing occurrence. -/
theorem outEdges_singleton {E : List Edge} {v : ℤ} (h : outdeg E v = 1) :
    ∃ e, outEdges E v = [e] ∧ e.1 = v ∧ e ∈ E := by
  obtain ⟨e, he⟩ := List.length_eq_one.mp h
  have hmem : e ∈ outEdges E v := by rw [he]; exact List.mem_singleton_self e
  obtain ⟨heE, hev⟩ := mem_outEdges.mp hmem
  exact ⟨e, he, hev, heE⟩

/-- Out-degree as a count of edge sources. -/
theorem outdeg_eq_count (E : List Edge) (v : ℤ) :
    outdeg E v = (E.map Prod.fst).count v := by
  induction E with
  | nil => rfl
  | cons e E ih =>
    rw [outdeg_cons, List.map_cons, List.count_cons, ih]
    by_cases h : e.1 = v <;> simp [h, Nat.add_comm]

/-- In-degree as a count of edge targets. -/
theorem indeg_eq_count (E : List Edge) (v : ℤ) :
    indeg E v = (E.map Prod.snd).count v := by
  induction E with
  | nil => rfl
  | cons e E ih =>
    rw [indeg_cons, List.map_cons, List.count_cons, ih]
    by_cases h : e.2 = v <;> simp [h, Nat.add_comm]

/-- The trail-walk counting argument: in an edge list whose vertices are
all balanced except that the trail start `s` has one missing out-edge and
the current vertex `c` one missing in-edge, `c` still has an outgoing
edge — a walk can only get stuck at its start. -/
theorem current_has_out (E : List Edge) (s c : ℤ) (hsc : c ≠ s)
    (hbal : ∀ v, v ≠ s → v ≠ c → outdeg E v = indeg E v)
    (houts : outdeg E s = 0) (hins : indeg E s = 1) (hinc : indeg E c = 0) :
    1 ≤ outdeg E c := by
  by_contra hno
  have hc0 : outdeg E c = 0 := by omega
  have hle : ((E.map Prod.fst : List ℤ) : Multiset ℤ) ≤
      ((E.map Prod.snd : List ℤ) : Multiset ℤ) := by
    rw [Multiset.le_iff_count]
    intro v
    rw [Multiset.coe_count, Multiset.coe_count, ← outdeg_eq_count, ← indeg_eq_count]
    by_cases hvs : v = s
    · subst hvs; omega
    · by_cases hvc : v = c
      · subst hvc; omega
      · exact le_of_eq (hbal v hvs hvc)
  have hcard : (((E.map Prod.snd : List ℤ) : Multiset ℤ)).card ≤
      (((E.map Prod.fst : List ℤ) : Multiset ℤ)).card := by
    simp
  have heq := Multiset.eq_of_le_of_card_le hle hcard
  have hcnt : outdeg E s = indeg E s := by
    rw [outdeg_eq_count, indeg_eq_count, ← Multiset.coe_count, ← Multiset.coe_count,
      heq]
  omega

/-- `perm_cons_erase` for any lawful boolean equality. -/
theorem perm_cons_erase_of_mem {α : Type} [BEq α] [LawfulBEq α] {a : α}
    {l : List α} (h : a ∈ l) : l.Perm (a :: l.erase a) := by
  induction l with
  | nil => cases h
  | cons b t ih =>
    by_cases hba : b = a
    · subst hba
      rw [List.erase_cons_head]
    · have hat : a ∈ t := by
        rcases List.mem_cons.mp h with h1 | h1
        · exact absurd h1.symm hba
        · exact h1
      rw [List.erase_cons_tail (by simpa using hba)]
      exact (List.Perm.cons b (ih hat)).trans (List.Perm.swap a b _)

/-- The inner walk, started at `s` and currently at `c`, always closes
under the walk invariant: it returns the accumulated vertex list
(extended by the vertices it visits), consuming exactly the edge chain
from `c` back to `s`, and restores the outer invariant. -/
theorem walkF_close (s : ℤ) : ∀ (fuel : ℕ) (E : List Edge) (m : EMap)
    (c : ℤ) (acc : List ℤ), E.length ≤ fuel → InvW m E s c →
    ∃ vs E2 m2, walkF fuel E m s c acc = .ok (acc ++ vs, E2, m2) ∧
      E.Perm (chainEdges (c :: (vs ++ [s])) ++ E2) ∧ InvO m2 E2 := by
  intro fuel
  induction fuel with
  | zero =>
    intro E m c acc hlen inv
    have hE : E = [] := List.eq_nil_of_length_eq_zero (by omega)
    subst hE
    have hbad := inv.inS
    simp [indeg, inEdges] at hbad
  | succ fuel ih =>
    intro E m c acc hlen inv
    have hout1 : outdeg E c = 1 :=
      le_antisymm (inv.degO c)
        (current_has_out E s c inv.ne inv.balO inv.outS inv.inS inv.inC)
    obtain ⟨e, hoe, he1, heE⟩ := outEdges_singleton hout1
    obtain ⟨l, hl⟩ : ∃ l, m c = some l := by
      cases hmc : m c with
      | none => exact absurd hmc inv.keyC
      | some l => exact ⟨l, rfl⟩
    have hle : l = [e] := by
      have hp := inv.consistent c
      rw [emL, hl] at hp
      rw [hoe] at hp
      exact List.perm_singleton.mp hp
    subst hle
    have hEp : E.Perm (e :: E.erase e) := perm_cons_erase_of_mem heE
    have hsub : (E.erase e).Sublist E := List.erase_sublist e E
    have houtv : ∀ v, outdeg E v = (if c = v then 1 else 0) + outdeg (E.erase e) v := by
      intro v
      rw [outdeg_of_perm hEp v, outdeg_cons, he1]
    have hindv : ∀ v, indeg E v = (if e.2 = v then 1 else 0) + indeg (E.erase e) v := by
      intro v
      rw [indeg_of_perm hEp v, indeg_cons]
    have hodc : outdeg (E.erase e) c = 0 := by
      have h := houtv c
      rw [if_pos rfl, hout1] at h
      omega
    have hcons2 : ∀ v, (emL (emSet m c []) v).Perm (outEdges (E.erase e) v) := by
      intro v
      by_cases hv : v = c
      · rw [hv, emL_emSet_self]
        have hnil : outEdges (E.erase e) c = [] :=
          List.eq_nil_of_length_eq_zero hodc
        rw [hnil]
      · rw [emL_emSet_other m c [] v hv]
        have hfp : (outEdges E v).Perm (outEdges (e :: E.erase e) v) := hEp.filter _
        rw [outEdges_cons, he1, if_neg (fun hh : c = v => hv hh.symm)] at hfp
        exact (inv.consistent v).trans hfp
    have hkeyed2 : ∀ e2 ∈ E.erase e,
        emSet m c [] e2.1 ≠ none ∧ emSet m c [] e2.2 ≠ none := by
      intro e2 he2
      obtain ⟨hk1, hk2⟩ := inv.keyed e2 (List.mem_of_mem_erase he2)
      exact ⟨emSet_ne_none _ _ _ _ hk1, emSet_ne_none _ _ _ _ hk2⟩
    have hnoself2 : ∀ e2 ∈ E.erase e, e2.1 ≠ e2.2 :=
      fun e2 he2 => inv.noSelf e2 (List.mem_of_mem_erase he2)
    have hdegO2 : ∀ v, outdeg (E.erase e) v ≤ 1 :=
      fun v => le_trans (outdeg_le_of_sublist hsub v) (inv.degO v)
    have hdegI2 : ∀ v, indeg (E.erase e) v ≤ 1 :=
      fun v => le_trans (indeg_le_of_sublist hsub v) (inv.degI v)
    by_cases hes : e.2 = s
    · refine ⟨[], E.erase e, emSet m c [], ?_, ?_, ?_⟩
      · simp only [walkF, hl, List.getLast_singleton, List.dropLast_single]
        rw [if_pos heE, if_pos hes]
        simp
      · have hecs : e = (c, s) := by
          obtain ⟨a, b⟩ := e
          simp only at he1 hes
          rw [he1, hes]
        simp only [List.nil_append, chainEdges]
        rw [← hecs]
        exact hEp
      · refine ⟨hdegO2, hdegI2, ?_, hcons2, hkeyed2, hnoself2⟩
        intro v
        have h1 := houtv v
        have h2 := hindv v
        rw [hes] at h2
        by_cases hvc : v = c
        · have e1 : outdeg E v = 1 := by rw [hvc]; exact hout1
          have e2 : indeg E v = 0 := by rw [hvc]; exact inv.inC
          have hsv : ¬ s = v := by rw [hvc]; exact fun hh => inv.ne hh.symm
          rw [if_pos hvc.symm] at h1
          rw [if_neg hsv] at h2
          omega
        · by_cases hvs : v = s
          · have e1 : outdeg E v = 0 := by rw [hvs]; exact inv.outS
            have e2 : indeg E v = 1 := by rw [hvs]; exact inv.inS
            have hcv : ¬ c = v := by rw [hvs]; exact inv.ne
            rw [if_neg hcv] at h1
            rw [if_pos hvs.symm] at h2
            omega
          · have e3 := inv.balO v hvs hvc
            rw [if_neg (fun hh : c = v => hvc hh.symm)] at h1
            rw [if_neg (fun hh : s = v => hvs hh.symm)] at h2
            omega
    · have hc2ne : e.2 ≠ c := by
        intro hh
        exact inv.noSelf e heE (he1.trans hh.symm)
      have hinc2 : indeg E e.2 = 1 := by
        have hmem : e ∈ inEdges E e.2 := mem_inEdges.mpr ⟨heE, rfl⟩
        have hge : 0 < indeg E e.2 := List.length_pos.mpr (List.ne_nil_of_mem hmem)
        have hle2 := inv.degI e.2
        omega
      have hinv2 : InvW (emSet m c []) (E.erase e) s e.2 := by
        refine ⟨hdegO2, hdegI2, ?_, ?_, ?_, ?_, hes, hcons2, hkeyed2, hnoself2, ?_⟩
        · intro v hvs hvc2
          have h1 := houtv v
          have h2 := hindv v
          by_cases hvc : v = c
          · have e1 : outdeg E v = 1 := by rw [hvc]; exact hout1
            have e2 : indeg E v = 0 := by rw [hvc]; exact inv.inC
            have hc2v : ¬ e.2 = v := by rw [hvc]; exact hc2ne
            rw [if_pos hvc.symm] at h1
            rw [if_neg hc2v] at h2
            omega
          · have e3 := inv.balO v hvs hvc
            rw [if_neg (fun hh : c = v => hvc hh.symm)] at h1
            rw [if_neg (fun hh : e.2 = v => hvc2 hh.symm)] at h2
            omega
        · have h1 := houtv s
          rw [if_neg (fun hh : c = s => inv.ne hh)] at h1
          have h2 := inv.outS
          omega
        · have h2 := hindv s
          rw [if_neg hes] at h2
          have h3 := inv.inS
          omega
        · have h2 := hindv e.2
          rw [if_pos rfl] at h2
          omega
        · exact emSet_ne_none _ _ _ _ (inv.keyed e heE).2
      have hlen2 : (E.erase e).length ≤ fuel := by
        rw [List.length_erase_of_mem heE]
        have hpos : 0 < E.length := List.length_pos.mpr (List.ne_nil_of_mem heE)
        omega
      obtain ⟨vs2, E3, m3, heq, hperm, hinvo⟩ :=
        ih (E.erase e) (emSet m c []) e.2 (acc ++ [e.2]) hlen2 hinv2
      refine ⟨e.2 :: vs2, E3, m3, ?_, ?_, hinvo⟩
      · simp only [walkF, hl, List.getLast_singleton, List.dropLast_single]
        rw [if_pos heE, if_neg hes, heq]
        simp
      · have hecs : e = (c, e.2) := by
          obtain ⟨a, b⟩ := e
          simp only at he1
          rw [he1]
        have hch : chainEdges (c :: ((e.2 :: vs2) ++ [s])) =
            e :: chainEdges (e.2 :: (vs2 ++ [s])) := by
          rw [List.cons_append, chainEdges, ← hecs]
        rw [hch, List.cons_append]
        exact hEp.trans (List.Perm.cons e hperm)

/-- The outer tracing loop, under the outer invariant: it runs without
error, every returned loop is nonempty, and the returned loops' edges
(including each loop's implicit closing edge) are exactly the pending
boundary edges, each consumed once. -/
theorem traceAllF_close : ∀ (fuel : ℕ) (E : List Edge) (m : EMap),
    E.length ≤ fuel → InvO m E →
    ∃ loops, traceAllF fuel E m = .ok loops ∧
      E.Perm (loops.map loopEdges).flatten ∧ ∀ loop ∈ loops, loop ≠ [] := by
  intro fuel
  induction fuel with
  | zero =>
    intro E m hlen inv
    have hE : E = [] := List.eq_nil_of_length_eq_zero (by omega)
    subst hE
    exact ⟨[], rfl, by simp, by simp⟩
  | succ fuel ih =>
    intro E m hlen inv
    cases hE : E.getLast? with
    | none =>
      have hEnil : E = [] := by
        cases E with
        | nil => rfl
        | cons a t =>
          rw [List.getLast?_eq_getLast (a :: t) (List.cons_ne_nil a t)] at hE
          simp at hE
      subst hEnil
      exact ⟨[], rfl, by simp, by simp⟩
    | some e =>
      have hne : E ≠ [] := by
        intro h
        rw [h] at hE
        simp at hE
      have hgl : E.getLast hne = e := by
        have h2 := List.getLast?_eq_getLast E hne
        rw [hE] at h2
        injection h2 with h3
        exact h3.symm
      have hEd : E.dropLast ++ [e] = E := by
        rw [← hgl]
        exact List.dropLast_append_getLast hne
      have hEp : E.Perm (e :: E.dropLast) := by
        have hp := List.perm_append_singleton e E.dropLast
        rw [hEd] at hp
        exact hp
      have heE : e ∈ E := by
        rw [← hEd]
        simp
      have hsub : List.Sublist E.dropLast E := List.dropLast_sublist E
      have hnoselfe : e.1 ≠ e.2 := inv.noSelf e heE
      have hout1 : outdeg E e.1 = 1 := by
        have hmem : e ∈ outEdges E e.1 := mem_outEdges.mpr ⟨heE, rfl⟩
        have hpos : 0 < outdeg E e.1 := List.length_pos.mpr (List.ne_nil_of_mem hmem)
        have hle1 := inv.degO e.1
        omega
      have hin2 : indeg E e.2 = 1 := by
        have hmem : e ∈ inEdges E e.2 := mem_inEdges.mpr ⟨heE, rfl⟩
        have hpos : 0 < indeg E e.2 := List.length_pos.mpr (List.ne_nil_of_mem hmem)
        have hle1 := inv.degI e.2
        omega
      obtain ⟨l, hl⟩ : ∃ l, m e.1 = some l := by
        cases hml : m e.1 with
        | none => exact absurd hml (inv.keyed e heE).1
        | some l => exact ⟨l, rfl⟩
      have hoel : outEdges E e.1 = [e] := by
        obtain ⟨e2, he2, _, _⟩ := outEdges_singleton hout1
        have hmem : e ∈ outEdges E e.1 := mem_outEdges.mpr ⟨heE, rfl⟩
        rw [he2] at hmem ⊢
        rw [List.mem_singleton.mp hmem]
      have hleq : l = [e] := by
        have hp := inv.consistent e.1
        rw [emL, hl] at hp
        rw [hoel] at hp
        exact List.perm_singleton.mp hp
      subst hleq
      have houtv : ∀ v, outdeg E v =
          (if e.1 = v then 1 else 0) + outdeg E.dropLast v := by
        intro v
        rw [outdeg_of_perm hEp v, outdeg_cons]
      have hindv : ∀ v, indeg E v =
          (if e.2 = v then 1 else 0) + indeg E.dropLast v := by
        intro v
        rw [indeg_of_perm hEp v, indeg_cons]
      have hodc : outdeg E.dropLast e.1 = 0 := by
        have h := houtv e.1
        rw [if_pos rfl, hout1] at h
        omega
      have hinv2 : InvW (emSet m e.1 []) E.dropLast e.1 e.2 := by
        refine ⟨?_, ?_, ?_, hodc, ?_, ?_, hnoselfe.symm, ?_, ?_, ?_, ?_⟩
        · exact fun v => le_trans (outdeg_le_of_sublist hsub v) (inv.degO v)
        · exact fun v => le_trans (indeg_le_of_sublist hsub v) (inv.degI v)
        · intro v hv1 hv2
          have h1 := houtv v
          have h2 := hindv v
          rw [if_neg (fun hh : e.1 = v => hv1 hh.symm)] at h1
          rw [if_neg (fun hh : e.2 = v => hv2 hh.symm)] at h2
          have h3 := inv.bal v
          omega
        · have h2 := hindv e.1
          rw [if_neg (fun hh : e.2 = e.1 => hnoselfe hh.symm)] at h2
          have h3 := inv.bal e.1
          omega
        · have h2 := hindv e.2
          rw [if_pos rfl] at h2
          omega
        · intro v
          by_cases hv : v = e.1
          · rw [hv, emL_emSet_self]
            have hnil : outEdges E.dropLast e.1 = [] :=
              List.eq_nil_of_length_eq_zero hodc
            rw [hnil]
          · rw [emL_emSet_other m e.1 _ v hv]
            have hfp : (outEdges E v).Perm (outEdges (e :: E.dropLast) v) :=
              hEp.filter _
            rw [outEdges_cons, if_neg (fun hh : e.1 = v => hv hh.symm)] at hfp
            exact (inv.consistent v).trans hfp
        · intro e2 he2
          obtain ⟨hk1, hk2⟩ := inv.keyed e2 (hsub.subset he2)
          exact ⟨emSet_ne_none _ _ _ _ hk1, emSet_ne_none _ _ _ _ hk2⟩
        · exact fun e2 he2 => inv.noSelf e2 (hsub.subset he2)
        · exact emSet_ne_none _ _ _ _ (inv.keyed e heE).2
      obtain ⟨vs, E3, m3, heqw, hpermw, hinvo3⟩ :=
        walkF_close e.1 E.dropLast.length E.dropLast (emSet m e.1 []) e.2
          [e.1, e.2] (le_refl _) hinv2
      have hlenE : E.dropLast.length + 1 = E.length := by
        have := congrArg List.length hEd
        simpa using this
      have hlen3 : E3.length ≤ fuel := by
        have hw := hpermw.length_eq
        rw [List.length_append] at hw
        omega
      obtain ⟨loops, heqt, hpermt, hnil⟩ := ih E3 m3 hlen3 hinvo3
      refine ⟨([e.1, e.2] ++ vs) :: loops, ?_, ?_, ?_⟩
      · simp only [traceAllF, hE, hl]
        rw [if_pos (List.mem_singleton_self e)]
        simp only [List.erase_cons_head]
        rw [heqw]
        dsimp only
        rw [heqt]
      · have hloopE : loopEdges ([e.1, e.2] ++ vs) =
            e :: chainEdges (e.2 :: (vs ++ [e.1])) := by
          show chainEdges ((e.1 :: e.2 :: vs) ++ [e.1]) = _
          rw [List.cons_append, List.cons_append, chainEdges]
        rw [List.map_cons, List.flatten_cons, hloopE, List.cons_append]
        exact hEp.trans
          (List.Perm.cons e (hpermw.trans (List.Perm.append_left _ hpermt)))
      · intro loop hloop
        rcases List.mem_cons.mp hloop with rfl | h2
        · simp
        · exact hnil loop h2

/-- A boundary edge is never a self-loop: `(v, v)` is its own reverse,
so it can never pass the reverse-absent test. -/
theorem boundary_no_self_loop (fp : Floorplan) (tri_inds : List ℤ)
    (E : List Edge) (h : fp.compute_boundary_edges_for tri_inds = .ok E) :
    ∀ e ∈ E, e.1 ≠ e.2 := by
  unfold Floorplan.compute_boundary_edges_for at h
  cases hall : fp.allEdgesFor tri_inds with
  | error er => rw [hall] at h; simp at h
  | ok all =>
    rw [hall] at h
    injection h with h2
    intro e heE hself
    rw [← h2] at heE
    obtain ⟨hmem, hrev⟩ := List.mem_filter.mp heE
    have : (e.2, e.1) = e := by
      obtain ⟨a, b⟩ := e
      simp only at hself
      rw [hself]
    rw [this] at hrev
    simp at hrev
    exact hrev hmem

/-- The final edge of a path chain. -/
theorem getLast_mem_chainEdges (l : List ℤ) (h : l ≠ []) (x : ℤ) :
    (l.getLast h, x) ∈ chainEdges (l ++ [x]) := by
  induction l with
  | nil => exact absurd rfl h
  | cons a t ih =>
    cases t with
    | nil => simp [chainEdges]
    | cons b t2 =>
      rw [List.cons_append, List.cons_append, chainEdges]
      rw [List.getLast_cons (List.cons_ne_nil b t2)]
      exact List.mem_cons_of_mem _ (by
        have := ih (List.cons_ne_nil b t2)
        rwa [List.cons_append] at this)

/-- A loop's implicit closing edge is one of its traversed edges. -/
theorem getLast_head_mem_loopEdges (l : List ℤ) (h : l ≠ []) :
    (l.getLast h, l.head h) ∈ loopEdges l := by
  cases l with
  | nil => exact absurd rfl h
  | cons v rest =>
    show _ ∈ chainEdges ((v :: rest) ++ [v])
    have hm := getLast_mem_chainEdges (v :: rest) h v
    simpa using hm

/-- C10: if every vertex occurring among the boundary edges of the
subset has exactly one outgoing and one incoming boundary edge, the
tracer raises no exception, each boundary edge is traversed by exactly
one returned loop (counted with the loop's implicit closing edge), and
every returned loop closes: the edge from its last listed vertex back to
its first is a boundary edge of the subset. -/
theorem tracer_closed_loops_of_unique_degrees (fp : Floorplan)
    (tri_inds : List ℤ) (E : List Edge)
    (hE : fp.compute_boundary_edges_for tri_inds = .ok E)
    (hdeg : ∀ v ∈ E.map Prod.fst ++ E.map Prod.snd,
      outdeg E v = 1 ∧ indeg E v = 1) :
    ∃ loops, fp.compute_oriented_boundary_for tri_inds = .ok loops ∧
      E.Perm (loops.map loopEdges).flatten ∧
      ∀ loop ∈ loops, ∃ hne : loop ≠ [],
        (loop.getLast hne, loop.head hne) ∈ E := by
  have houtv0 : ∀ v, v ∉ E.map Prod.fst → outdeg E v = 0 := by
    intro v hv
    by_contra hnz
    have hne : outEdges E v ≠ [] := by
      intro hnil
      exact hnz (by rw [outdeg, hnil]; rfl)
    obtain ⟨e, he⟩ := List.exists_mem_of_ne_nil _ hne
    obtain ⟨heE, hev⟩ := mem_outEdges.mp he
    exact hv (List.mem_map.mpr ⟨e, heE, hev⟩)
  have hinv0 : ∀ v, v ∉ E.map Prod.snd → indeg E v = 0 := by
    intro v hv
    by_contra hnz
    have hne : inEdges E v ≠ [] := by
      intro hnil
      exact hnz (by rw [indeg, hnil]; rfl)
    obtain ⟨e, he⟩ := List.exists_mem_of_ne_nil _ hne
    obtain ⟨heE, hev⟩ := mem_inEdges.mp he
    exact hv (List.mem_map.mpr ⟨e, heE, hev⟩)
  have hinv : InvO (buildEdgeMap E) E := by
    refine ⟨?_, ?_, ?_, ?_, ?_, boundary_no_self_loop fp tri_inds E hE⟩
    · intro v
      by_cases hv : v ∈ E.map Prod.fst
      · exact le_of_eq (hdeg v (List.mem_append_left _ hv)).1
      · rw [houtv0 v hv]; omega
    · intro v
      by_cases hv : v ∈ E.map Prod.snd
      · exact le_of_eq (hdeg v (List.mem_append_right _ hv)).2
      · rw [hinv0 v hv]; omega
    · intro v
      by_cases hvf : v ∈ E.map Prod.fst
      · rw [(hdeg v (List.mem_append_left _ hvf)).1,
          (hdeg v (List.mem_append_left _ hvf)).2]
      · by_cases hvs : v ∈ E.map Prod.snd
        · rw [(hdeg v (List.mem_append_right _ hvs)).1,
            (hdeg v (List.mem_append_right _ hvs)).2]
        · rw [houtv0 v hvf, hinv0 v hvs]
    · intro v
      rw [buildEdgeMap_emL]
    · intro e heE
      constructor
      · exact buildEdgeMap_ne_none E e.1
          (List.ne_nil_of_mem (mem_outEdges.mpr ⟨heE, rfl⟩))
      · have h1 : outdeg E e.2 = 1 :=
          (hdeg e.2 (List.mem_append_right _ (List.mem_map.mpr ⟨e, heE, rfl⟩))).1
        refine buildEdgeMap_ne_none E e.2 ?_
        intro hnil
        rw [outdeg, hnil] at h1
        simp at h1
  obtain ⟨loops, heq, hperm, hnene⟩ :=
    traceAllF_close E.length E (buildEdgeMap E) (le_refl _) hinv
  have hco : fp.compute_oriented_boundary_for tri_inds =
      traceAllF E.length E (buildEdgeMap E) := by
    unfold Floorplan.compute_oriented_boundary_for
    rw [hE]
  refine ⟨loops, by rw [hco]; exact heq, hperm, ?_⟩
  intro loop hloop
  refine ⟨hnene loop hloop, ?_⟩
  have hcl : (loop.getLast (hnene loop hloop), loop.head (hnene loop hloop)) ∈
      loopEdges loop := getLast_head_mem_loopEdges loop (hnene loop hloop)
  have hfl : (loop.getLast (hnene loop hloop), loop.head (hnene loop hloop)) ∈
      (loops.map loopEdges).flatten := by
    rw [List.mem_flatten]
    exact ⟨loopEdges loop, List.mem_map_of_mem _ hloop, hcl⟩
  exact hperm.mem_iff.mpr hfl

/-- Witness for `tracer_closed_loops_of_unique_degrees` at the unit
square, whose four boundary edges give each vertex degree one each way. -/
theorem tracer_closed_loops_witness :
    ∃ loops, fpSquare.compute_oriented_boundary_for [0, 1] = .ok loops ∧
      ([((0 : ℤ), (1 : ℤ)), (1, 2), (2, 3), (3, 0)] : List Edge).Perm
        (loops.map loopEdges).flatten ∧
      ∀ loop ∈ loops, ∃ hne : loop ≠ [],
        (loop.getLast hne, loop.head hne) ∈
          ([((0 : ℤ), (1 : ℤ)), (1, 2), (2, 3), (3, 0)] : List Edge) :=
  tracer_closed_loops_of_unique_degrees fpSquare [0, 1]
    [(0, 1), (1, 2), (2, 3), (3, 0)] rfl (by decide)
